import Mathlib

/-!
Shallow embedding of the chess rules engine in `src/` (state.rs, chess_move.rs,
piece.rs, square.rs).  Rust panics (unwrap on `None`, `expect`, out-of-bounds
indexing, `unreachable!`) are modelled by the `Option` monad: a `none` result
stands for a panic.  Machine-integer casts (`as i8`, `as u8`) are modelled
explicitly via `u8ToI8` / `i8ToU8`; the wrap-around `u8` arithmetic used for
the castling targets is modelled by `u8add` / `u8sub`.  The boxed mutating
closures that the Rust code attaches to each `ChessMove` are represented by a
tagged union `EffectTag`, one constructor per closure shape occurring in
`state.rs`, interpreted by `runEffect`.
-/

/-- piece.rs: `PieceKind`. -/
inductive PieceKind where
  | Pawn | Rook | Knight | Bishop | Queen | King
deriving DecidableEq, Repr

/-- piece.rs: `ChessColour`. -/
inductive ChessColour where
  | White | Black
deriving DecidableEq, Repr

/-- piece.rs: `PieceKind::is_sliding`. -/
def PieceKind.is_sliding : PieceKind → Bool
  | .Pawn | .King | .Knight => false
  | _ => true

/-- piece.rs: `ChessColour::flip`. -/
def ChessColour.flip (c : ChessColour) : ChessColour :=
  if c = .White then .Black else .White

/-- piece.rs: `Piece`. -/
structure Piece where
  kind : PieceKind
  colour : ChessColour
  has_moved : Bool
  en_passanteable : Bool
deriving DecidableEq, Repr

/-- square.rs: `Square` (the rendering-only colour helper is omitted). -/
structure Square where
  coords : Nat × Nat
  content : Option Piece
deriving DecidableEq, Repr

/-- chess_move.rs: `PerformedMove`. -/
structure PerformedMove where
  src : Nat × Nat
  dst : Nat × Nat
deriving DecidableEq, Repr

/-- Tagged union standing for the boxed closures attached to moves in
state.rs.  Each constructor records exactly the data the corresponding Rust
closure captures (the leaked source/destination coordinates, and for the
double push the captured colour; for castling the `long` flag and colour). -/
inductive EffectTag where
  | dummy
  | enPassantFn (src dst : Nat × Nat)
  | promoteFn (src dst : Nat × Nat)
  | doublePushFn (src dst : Nat × Nat) (col : ChessColour)
  | defaultFn (src dst : Nat × Nat)
  | castleFn (long : Bool) (col : ChessColour) (src dst : Nat × Nat)
deriving DecidableEq, Repr

/-- chess_move.rs: `ChessMove` (destination plus attached effect).  Rust
equality of `ChessMove` compares `dst` only; the places that rely on that
(`contains`/`filter` in `attempt_move`) are modelled by explicit comparisons
on the `dst` field. -/
structure ChessMove where
  dst : Nat × Nat
  function : EffectTag
deriving DecidableEq, Repr

/-- chess_move.rs: `ChessMove::dummy`. -/
def ChessMove.dummy (dst : Nat × Nat) : ChessMove := ⟨dst, .dummy⟩

/-- state.rs: `State`. -/
structure State where
  squares : List Square
  turn : ChessColour
  selected_square : Option (Nat × Nat)
  mouse_pressed_previous : Bool
  game_running : Bool
  history : List PerformedMove
  next_promotor : PieceKind
deriving DecidableEq, Repr

/-- Rust `u8 as i8` (two's-complement reinterpretation). -/
def u8ToI8 (n : Nat) : Int :=
  if n % 256 < 128 then ((n % 256 : Nat) : Int) else ((n % 256 : Nat) : Int) - 256

/-- Rust `i8 as u8` (reduction mod 256). -/
def i8ToU8 (i : Int) : Nat := (i % 256).toNat

/-- Wrapping `u8` addition (release-mode semantics of `a + b` on `u8`). -/
def u8add (a b : Nat) : Nat := (a + b) % 256

/-- Wrapping `u8` subtraction (release-mode semantics of `a - b` on `u8`). -/
def u8sub (a b : Nat) : Nat := (a + 256 - b % 256) % 256

/-- `HashSet::insert`: add an element unless already present.  (The iteration
order of Rust's `HashSet` is unspecified; this model fixes insertion order,
which is immaterial to the membership/cardinality facts proved below.) -/
def hinsert (l : List (Nat × Nat)) (x : Nat × Nat) : List (Nat × Nat) :=
  if x ∈ l then l else l ++ [x]

/-- `HashSet::remove`. -/
def hremove (l : List (Nat × Nat)) (x : Nat × Nat) : List (Nat × Nat) :=
  l.filter (fun y => y ≠ x)

/-- Board index used by `Index<(u8,u8)> for State`: `file + 8 * rank`. -/
def idx (c : Nat × Nat) : Nat := c.1 + 8 * c.2

/-- state.rs: `Index<(u8,u8)> for State` — reading a square; `none` models the
out-of-bounds panic. -/
def State.sq (s : State) (c : Nat × Nat) : Option Square :=
  s.squares.get? (idx c)

/-- state.rs: `IndexMut<(u8,u8)> for State` followed by a `.content = …`
assignment; `none` models the out-of-bounds panic.  The `coords` field of the
square is untouched, as in the Rust code. -/
def State.setContent (s : State) (c : Nat × Nat) (p : Option Piece) : Option State :=
  match s.squares.get? (idx c) with
  | none => none
  | some sq0 => some { s with squares := s.squares.set (idx c) { sq0 with content := p } }

/-- The `state.history.push(PerformedMove::new(src, dst))` step every move
closure begins with. -/
def pushHist (s : State) (src dst : Nat × Nat) : State :=
  { s with history := s.history ++ [⟨src, dst⟩] }

/-- state.rs: `State::get_king_coord` — first square holding a King of the
given colour, in board order; `none` models the `expect` panic. -/
def get_king_coord (s : State) (col : ChessColour) : Option (Nat × Nat) :=
  (s.squares.find? (fun sq0 =>
      match sq0.content with
      | some p => decide (p.kind = .King ∧ p.colour = col)
      | none => false)).map (fun sq0 => sq0.coords)

/-- state.rs: `State::en_passant`. -/
def en_passant (s : State) (src dst : Nat × Nat) : Option State := do
  let ssq ← s.sq src
  let s1 ← s.setContent dst ssq.content
  let s2 ← s1.setContent (dst.1, src.2) none
  s2.setContent src none

/-- state.rs: `State::promote_pawn`; the `Pawn | King => unreachable!` arm is
a panic (`none`). -/
def promote_pawn (s : State) (src dst : Nat × Nat) : Option State :=
  match s.next_promotor with
  | .Pawn => none
  | .King => none
  | k => do
      let ssq ← s.sq src
      let p ← ssq.content
      let s1 ← s.setContent dst (some ⟨k, p.colour, true, false⟩)
      s1.setContent src none

/-- The manual-relocation branch of `State::make_move` (also the whole of a
`make_move` with a `ChessMove::dummy`, whose closure returns `false`): copy
the source piece to the destination with `has_moved` set, clear the source. -/
def runDummyMove (s : State) (src dst : Nat × Nat) : Option State := do
  let ssq ← s.sq src
  let p ← ssq.content
  let s1 ← s.setContent dst (some { p with has_moved := true })
  s1.setContent src none

/-- state.rs: `State::perform_castle`, whose two `make_move` calls both use
`ChessMove::dummy` and therefore reduce to manual relocations. -/
def perform_castle (s : State) (long : Bool) (col : ChessColour) : Option State := do
  let rookCoord : Nat × Nat := ((if long then 0 else 7), (if col = .White then 0 else 7))
  let kingCoord ← get_king_coord s col
  let rookTarget : Nat × Nat := ((if long then 3 else 5), rookCoord.2)
  let kingTarget : Nat × Nat := ((if long then 2 else 6), kingCoord.2)
  let s1 ← runDummyMove s rookCoord rookTarget
  runDummyMove s1 kingCoord kingTarget

/-- Interpreter for the move closures of state.rs.  Returns the mutated state
and the closure's boolean ("pieces were already moved").  Every non-dummy
closure first pushes one `PerformedMove` onto the history, exactly as in
`get_moves`. -/
def runEffect : EffectTag → State → Option (State × Bool)
  | .dummy, s => some (s, false)
  | .enPassantFn src dst, s => (en_passant (pushHist s src dst) src dst).map (fun t => (t, true))
  | .promoteFn src dst, s => (promote_pawn (pushHist s src dst) src dst).map (fun t => (t, true))
  | .doublePushFn src dst col, s =>
      ((pushHist s src dst).setContent src (some ⟨.Pawn, col, true, true⟩)).map (fun t => (t, false))
  | .defaultFn src dst, s => some (pushHist s src dst, false)
  | .castleFn long col src dst, s => (perform_castle (pushHist s src dst) long col).map (fun t => (t, true))

/-- state.rs: `State::make_move`. -/
def make_move (s : State) (src : Nat × Nat) (m : ChessMove) : Option State := do
  let r ← runEffect m.function s
  if r.2 then pure r.1 else runDummyMove r.1 src m.dst

theorem make_move_dummy (s : State) (src dst : Nat × Nat) :
    make_move s src (ChessMove.dummy dst) = runDummyMove s src dst := rfl

/-! ## Move generation (state.rs: `State::get_moves`) -/

/-- chess_move.rs: `KNIGHT_MOVES_RAW`. -/
def KNIGHT_MOVES_RAW : List (Int × Int) :=
  [(1, 2), (-1, 2), (2, 1), (-2, 1), (2, -1), (-2, -1), (1, -2), (-1, -2)]

/-- chess_move.rs: `KING_MOVES_RAW`. -/
def KING_MOVES_RAW : List (Int × Int) :=
  [(-1, -1), (-1, 0), (-1, 1), (0, 1), (0, -1), (1, -1), (1, 0), (1, 1)]

/-- chess_move.rs: `ROOK_OFFSETS`. -/
def ROOK_OFFSETS : List (Int × Int) := [(-1, 0), (1, 0), (0, -1), (0, 1)]

/-- chess_move.rs: `BISHOP_OFFSETS`. -/
def BISHOP_OFFSETS : List (Int × Int) := [(-1, -1), (1, -1), (-1, 1), (1, 1)]

/-- chess_move.rs: `QUEEN_OFFSETS`. -/
def QUEEN_OFFSETS : List (Int × Int) :=
  [(-1, -1), (1, -1), (-1, 1), (1, 1), (-1, 0), (1, 0), (0, -1), (0, 1)]

/-- The offset table chosen for a sliding piece (the `unreachable!` arm for a
non-slider is never hit because `is_sliding` already dispatched; it is given
the empty table). -/
def slidingOffsets : PieceKind → List (Int × Int)
  | .Queen => QUEEN_OFFSETS
  | .Rook => ROOK_OFFSETS
  | .Bishop => BISHOP_OFFSETS
  | _ => []

/-- The colour- and rank-dependent forward offset table for a pawn
(state.rs lines 232-254): a pawn on the rank directly before its promotion
rank gets no forward offsets at all. -/
def pawnOffsets (piece : Piece) (coord : Nat × Nat) : List (Int × Int) :=
  if piece.colour = .White then
    if coord.2 = 6 then []
    else if piece.has_moved then [(0, 1)] else [(0, 1), (0, 2)]
  else
    if coord.2 = 1 then []
    else if piece.has_moved then [(0, -1)] else [(0, -1), (0, -2)]

/-- The offset table for a stepping piece (the `unreachable!` arm is never
hit: `is_sliding` is false exactly for Pawn/Knight/King). -/
def steppingOffsets (piece : Piece) (coord : Nat × Nat) : List (Int × Int) :=
  match piece.kind with
  | .Pawn => pawnOffsets piece coord
  | .Knight => KNIGHT_MOVES_RAW
  | .King => KING_MOVES_RAW
  | _ => []

/-- One ray of the sliding-piece loop in `get_moves`.  `fuel` bounds the loop
(a board traversal takes at most 8 steps); `cur` is `current_coord`, `ms` the
accumulated `moves` set.  A `none` square read models the indexing panic. -/
def slideRay (s : State) (col : ChessColour) (dir : Int × Int) :
    Nat → Nat × Nat → List (Nat × Nat) → Option (List (Nat × Nat))
  | 0, _, ms => some ms
  | fuel + 1, cur, ms =>
    if 0 ≤ u8ToI8 cur.1 + dir.1 ∧ u8ToI8 cur.1 + dir.1 < 8 ∧
        0 ≤ u8ToI8 cur.2 + dir.2 ∧ u8ToI8 cur.2 + dir.2 < 8 then
      match s.sq (i8ToU8 (u8ToI8 cur.1 + dir.1), i8ToU8 (u8ToI8 cur.2 + dir.2)) with
      | none => none
      | some sqn =>
        match sqn.content with
        | some hit =>
            if hit.colour = col.flip then
              some (hinsert (hinsert ms cur) (i8ToU8 (u8ToI8 cur.1 + dir.1), i8ToU8 (u8ToI8 cur.2 + dir.2)))
            else some (hinsert ms cur)
        | none =>
            slideRay s col dir fuel (i8ToU8 (u8ToI8 cur.1 + dir.1), i8ToU8 (u8ToI8 cur.2 + dir.2))
              (hinsert ms (i8ToU8 (u8ToI8 cur.1 + dir.1), i8ToU8 (u8ToI8 cur.2 + dir.2)))
    else some ms

/-- The `for direction in offsets` loop around `slideRay`. -/
def slideAll (s : State) (col : ChessColour) (coord : Nat × Nat) :
    List (Int × Int) → List (Nat × Nat) → Option (List (Nat × Nat))
  | [], ms => some ms
  | d :: rest, ms => do
      let ms' ← slideRay s col d 16 coord ms
      slideAll s col coord rest ms'

/-- The stepping-piece pipeline of `get_moves` (map offsets, keep on-board,
cast back to `u8`, keep squares empty or enemy-occupied, collect into the
set), evaluated element by element as the Rust iterator chain is. -/
def stepDests (s : State) (col : ChessColour) (coord : Nat × Nat) :
    List (Int × Int) → List (Nat × Nat) → Option (List (Nat × Nat))
  | [], acc => some acc
  | o :: rest, acc =>
    if 0 ≤ u8ToI8 coord.1 + o.1 ∧ u8ToI8 coord.1 + o.1 < 8 ∧
        0 ≤ u8ToI8 coord.2 + o.2 ∧ u8ToI8 coord.2 + o.2 < 8 then
      match s.sq (i8ToU8 (u8ToI8 coord.1 + o.1), i8ToU8 (u8ToI8 coord.2 + o.2)) with
      | none => none
      | some sqn =>
        match sqn.content with
        | none =>
            stepDests s col coord rest
              (hinsert acc (i8ToU8 (u8ToI8 coord.1 + o.1), i8ToU8 (u8ToI8 coord.2 + o.2)))
        | some p =>
            if p.colour = col.flip then
              stepDests s col coord rest
                (hinsert acc (i8ToU8 (u8ToI8 coord.1 + o.1), i8ToU8 (u8ToI8 coord.2 + o.2)))
            else stepDests s col coord rest acc
    else stepDests s col coord rest acc

/-- The ordinary-capture insertion of the pawn block (state.rs lines 295-303
and 329-337): insert `tc` when it holds an enemy piece. -/
def capInsert (s : State) (col : ChessColour) (tc : Nat × Nat)
    (ms : List (Nat × Nat)) : Option (List (Nat × Nat)) := do
  let csq ← s.sq tc
  pure (match csq.content with
        | some p => if p.colour = col.flip then hinsert ms tc else ms
        | none => ms)

/-- The en-passant candidate of the pawn block (state.rs lines 305-325 and
339-359): if the piece beside the pawn (same rank, file `adjFile`) is flagged
`en_passanteable`, produce the en-passant move with its closure. -/
def epCandidate (s : State) (coord : Nat × Nat) (adjFile : Nat)
    (dst : Nat × Nat) : Option (List ChessMove) := do
  let asq ← s.sq (adjFile, coord.2)
  pure (match asq.content with
        | some p => if p.en_passanteable then [⟨dst, .enPassantFn coord dst⟩] else []
        | none => [])

/-- The double-push removal at the top of the pawn block (state.rs lines
281-285): when the pawn has not moved, the double square is read (a panic if
off the board) and removed from the set when occupied. -/
def doubleRemove (s : State) (piece : Piece) (doubleUp : Nat × Nat)
    (moves0 : List (Nat × Nat)) : Option (List (Nat × Nat)) :=
  if piece.has_moved then some moves0
  else
    match s.sq doubleUp with
    | none => none
    | some dsq => some (if dsq.content.isSome then hremove moves0 doubleUp else moves0)

/-- The leftward capture and en-passant checks of the pawn block (state.rs
lines 294-326), guarded by `coord.0 >= 1`. -/
def leftCaps (s : State) (coord : Nat × Nat) (piece : Piece) (upRank : Nat)
    (moves2 : List (Nat × Nat)) : Option (List (Nat × Nat) × List ChessMove) :=
  if 1 ≤ coord.1 then do
    let m3 ← capInsert s piece.colour (coord.1 - 1, upRank) moves2
    let e1 ← epCandidate s coord (coord.1 - 1) (coord.1 - 1, upRank)
    pure (m3, e1)
  else pure (moves2, ([] : List ChessMove))

/-- The rightward capture and en-passant checks of the pawn block (state.rs
lines 328-360), guarded by `coord.0 <= 6`. -/
def rightCaps (s : State) (coord : Nat × Nat) (piece : Piece) (upRank : Nat)
    (moves3 : List (Nat × Nat)) : Option (List (Nat × Nat) × List ChessMove) :=
  if coord.1 ≤ 6 then do
    let m4 ← capInsert s piece.colour (coord.1 + 1, upRank) moves3
    let e2 ← epCandidate s coord (coord.1 + 1) (coord.1 + 1, upRank)
    pure (m4, e2)
  else pure (moves3, ([] : List ChessMove))

/-- The whole `if piece.kind == Pawn` block of `get_moves` (state.rs lines
271-362): double-push removal when the double square is occupied, forward
removal when the square ahead is occupied, diagonal captures, and en-passant
candidates.  Returns the updated `moves` set and the en-passant entries of
`moves_with_fn`. -/
def pawnExtras (s : State) (coord : Nat × Nat) (piece : Piece)
    (moves0 : List (Nat × Nat)) : Option (List (Nat × Nat) × List ChessMove) := do
  let upDir : Int := if piece.colour = .White then 1 else -1
  let upRank : Nat := i8ToU8 (u8ToI8 coord.2 + upDir)
  let moves1 ← doubleRemove s piece (coord.1, i8ToU8 (u8ToI8 coord.2 + 2 * upDir)) moves0
  if upRank < 8 then do
    let usq ← s.sq (coord.1, upRank)
    let moves2 := if usq.content.isSome then hremove moves1 (coord.1, upRank) else moves1
    let lres ← leftCaps s coord piece upRank moves2
    let rres ← rightCaps s coord piece upRank lres.1
    pure (rres.1, lres.2 ++ rres.2)
  else
    pure (moves1, ([] : List ChessMove))

/-- The candidate-set part of `get_moves`: the `moves` hash set plus the
en-passant entries already pushed to `moves_with_fn`.  Sliding pieces run the
ray loop and then remove the source square; stepping pieces run the offset
pipeline, pawns additionally the pawn block. -/
def baseMoves (s : State) (coord : Nat × Nat) (piece : Piece) :
    Option (List (Nat × Nat) × List ChessMove) :=
  if piece.kind.is_sliding then do
    let ms ← slideAll s piece.colour coord (slidingOffsets piece.kind) []
    pure (hremove ms coord, ([] : List ChessMove))
  else do
    let ms ← stepDests s piece.colour coord (steppingOffsets piece coord) []
    if piece.kind = .Pawn then pawnExtras s coord piece ms else pure (ms, ([] : List ChessMove))

/-- The `for m in nonchecking_moves` classification of `get_moves` (state.rs
lines 390-440).  Note the Rust operator precedence on line 394: the test is
`(piece.kind == Pawn && m.1 == 0) || m.1 == 7`, so every move whose
destination rank is 7 receives the promotion closure, pawn or not. -/
def classifyMove (coord : Nat × Nat) (piece : Piece) (m : Nat × Nat) : ChessMove :=
  if (piece.kind = .Pawn ∧ m.2 = 0) ∨ m.2 = 7 then ⟨m, .promoteFn coord m⟩
  else if piece.kind = .Pawn ∧ (u8ToI8 m.2 - u8ToI8 coord.2).natAbs = 2 ∧ piece.has_moved = false then
    ⟨m, .doublePushFn coord m piece.colour⟩
  else ⟨m, .defaultFn coord m⟩

/-- The long-castle arm (state.rs lines 446-483): an unmoved Rook-kinded
piece on the a-file corner of the king's rank (colour unchecked) and empty
squares on files 1, 2, 3 yield the long-castle move with target two files
left of the king (`u8` wrapping subtraction). -/
def longCastleList (s : State) (piece : Piece) (kc coord : Nat × Nat) :
    Option (List ChessMove) := do
  let asq ← s.sq (0, kc.2)
  match asq.content with
  | none => pure ([] : List ChessMove)
  | some pa =>
    if pa.kind = .Rook ∧ pa.has_moved = false then do
      let b1 ← s.sq (1, kc.2)
      if b1.content.isNone then do
        let b2 ← s.sq (2, kc.2)
        if b2.content.isNone then do
          let b3 ← s.sq (3, kc.2)
          if b3.content.isNone then
            pure [ChessMove.mk (u8sub kc.1 2, kc.2) (.castleFn true piece.colour coord (u8sub kc.1 2, kc.2))]
          else pure []
        else pure []
      else pure []
    else pure []

/-- The short-castle arm (state.rs lines 485-520): an unmoved Rook-kinded
piece on the h-file corner of the king's rank (colour unchecked) and empty
squares on files 5, 6 yield the short-castle move with target two files
right of the king (`u8` wrapping addition). -/
def shortCastleList (s : State) (piece : Piece) (kc coord : Nat × Nat) :
    Option (List ChessMove) := do
  let hsq ← s.sq (7, kc.2)
  match hsq.content with
  | none => pure ([] : List ChessMove)
  | some ph =>
    if ph.kind = .Rook ∧ ph.has_moved = false then do
      let b5 ← s.sq (5, kc.2)
      if b5.content.isNone then do
        let b6 ← s.sq (6, kc.2)
        if b6.content.isNone then
          pure [ChessMove.mk (u8add kc.1 2, kc.2) (.castleFn false piece.colour coord (u8add kc.1 2, kc.2))]
        else pure []
      else pure []
    else pure []

/-- The castling block at the end of `get_moves` (state.rs lines 444-521).
Conditions checked by the code: the queried square is the king's square, the
king has not moved, the corner square of the castling side holds an unmoved
Rook (its colour is **not** checked), and the fixed intervening home squares
are empty (files 1,2,3 for long, 5,6 for short, on the king's rank). -/
def castleMoves (s : State) (coord : Nat × Nat) (piece : Piece) : Option (List ChessMove) := do
  let kc ← get_king_coord s piece.colour
  if coord = kc then do
    let ksq ← s.sq kc
    let kp ← ksq.content
    if kp.has_moved then pure []
    else do
      let longList ← longCastleList s piece kc coord
      let shortList ← shortCastleList s piece kc coord
      pure (longList ++ shortList)
  else pure []

/-- `get_moves(coord, false)`: candidate generation, classification and
castling, with no legality filter (this is what `is_in_check` calls to avoid
unbounded recursion). -/
def getMovesNoCheck (s : State) (coord : Nat × Nat) : Option (List ChessMove) := do
  let sq0 ← s.sq coord
  let piece ← sq0.content
  let bm ← baseMoves s coord piece
  let castles ← castleMoves s coord piece
  pure (bm.2 ++ bm.1.map (classifyMove coord piece) ++ castles)

/-- The scan inside `State::is_in_check`: for each occupied square in board
order, compute its unfiltered moves and stop at the first whose destinations
contain the king's coordinate. -/
def checkScan (s : State) (kc : Nat × Nat) : List (Nat × Nat) → Option Bool
  | [] => some false
  | c :: rest => do
      let ms ← getMovesNoCheck s c
      if ms.any (fun m => decide (m.dst = kc)) then pure true else checkScan s kc rest

/-- The coordinates of the occupied squares, in board order. -/
def occupiedCoords (s : State) : List (Nat × Nat) :=
  (s.squares.filter (fun sq0 => sq0.content.isSome)).map (fun sq0 => sq0.coords)

/-- state.rs: `State::is_in_check`. -/
def is_in_check (s : State) (col : ChessColour) : Option Bool := do
  let kc ← get_king_coord s col
  checkScan s kc (occupiedCoords s)

/-- The legality filter of `get_moves` (state.rs lines 369-385): keep a
candidate destination iff relocating to it on a clone of the state (as a
plain `ChessMove::dummy`) leaves the mover's colour not in check. -/
def checkFilter (s : State) (coord : Nat × Nat) (col : ChessColour) :
    List (Nat × Nat) → Option (List (Nat × Nat))
  | [] => some []
  | d :: rest => do
      let tb ← make_move s coord (ChessMove.dummy d)
      let inchk ← is_in_check tb col
      let rest' ← checkFilter s coord col rest
      pure (if inchk then rest' else d :: rest')

/-- state.rs: `State::get_moves`. -/
def get_moves (s : State) (coord : Nat × Nat) (test_for_checks : Bool) :
    Option (List ChessMove) := do
  let sq0 ← s.sq coord
  let piece ← sq0.content
  let bm ← baseMoves s coord piece
  let nonchecking ← if test_for_checks then checkFilter s coord piece.colour bm.1 else pure bm.1
  let castles ← castleMoves s coord piece
  pure (bm.2 ++ nonchecking.map (classifyMove coord piece) ++ castles)

/-- The test `target_square.content.is_some() && target_square.content
.unwrap().colour == source_piece.colour` of `attempt_move` (the unwrap is
guarded by the `is_some`, so no panic is possible here). -/
def targetOwnColour (tsq : Square) (sp : Piece) : Bool :=
  match tsq.content with
  | some p => decide (p.colour = sp.colour)
  | none => false

/-- state.rs: `State::attempt_move`. -/
def attempt_move (s : State) (target : Nat × Nat) : Option (State × Bool) := do
  let src ← s.selected_square
  let ssq ← s.sq src
  let sp ← ssq.content
  let tsq ← s.sq target
  if src ≠ target then
    if targetOwnColour tsq sp = false then do
      let ms ← get_moves s src true
      if ms.any (fun m => decide (m.dst = target)) then do
        let mv ← (ms.filter (fun m => decide (m.dst = target))).head?
        let s1 ← make_move s src mv
        pure ({ s1 with selected_square := none }, true)
      else pure ({ s with selected_square := none }, false)
    else pure ({ s with selected_square := none }, false)
  else pure ({ s with selected_square := none }, false)

/-! ## Turn-completion cleanup (spec §4.6) -/

/-- Modelled from the spec: the turn-completion cleanup of §4.6 ("After a
move is applied and the turn flips, the engine (or its caller) must clear
`en-passant-eligible` on every piece belonging to the colour that has just
regained the move").  No function in `src/` performs this clearing; this
definition follows the spec's words. -/
def clear_en_passant (s : State) (col : ChessColour) : State :=
  { s with squares := s.squares.map (fun sq0 =>
      match sq0.content with
      | some p =>
          if p.colour = col then { sq0 with content := some { p with en_passanteable := false } }
          else sq0
      | none => sq0) }

/-- Modelled from the spec: one complete ply as §4.5/§4.6 describe it —
apply the move, flip the turn, then clear the en-passant flags of the side
that has just regained the move. -/
def apply_ply (s : State) (src : Nat × Nat) (m : ChessMove) : Option State :=
  (make_move s src m).map (fun s1 =>
    let s2 := { s1 with turn := s1.turn.flip }
    clear_en_passant s2 s2.turn)

/-! ## Concrete boards and well-formedness -/

/-- A 64-square board with consistent `coords` fields and no pieces. -/
def emptyBoard : List Square :=
  (List.range 64).map (fun i => ⟨(i % 8, i / 8), none⟩)

/-- Put a piece on a board square (coordinates expected in range). -/
def place (b : List Square) (c : Nat × Nat) (p : Piece) : List Square :=
  b.set (idx c) ⟨c, some p⟩

/-- Boolean board well-formedness: exactly 64 squares whose `coords` fields
agree with their indices, as `State::new` establishes and every mutation in
state.rs preserves (only `content` is ever written). -/
def wf (s : State) : Bool :=
  s.squares.length == 64 &&
  (List.range 64).all (fun i =>
    match s.squares.get? i with
    | some sq0 => sq0.coords == (i % 8, i / 8)
    | none => false)

/-- A state over a board with White to move and empty history. -/
def mkState (b : List Square) : State :=
  ⟨b, .White, none, false, true, [], .Queen⟩

/-! ## Basic lemmas -/

theorem mem_hinsert {l : List (Nat × Nat)} {x y : Nat × Nat} :
    y ∈ hinsert l x ↔ y ∈ l ∨ y = x := by
  unfold hinsert
  split
  · constructor
    · exact fun h => Or.inl h
    · rintro (h | rfl) <;> [exact h; assumption]
  · simp [or_comm]

theorem mem_hremove {l : List (Nat × Nat)} {x y : Nat × Nat} :
    y ∈ hremove l x ↔ y ∈ l ∧ y ≠ x := by
  unfold hremove
  simp

/-- Fields other than `squares` are untouched by `setContent`, and the board
keeps its length. -/
theorem setContent_fields {s s' : State} {c : Nat × Nat} {p : Option Piece}
    (h : s.setContent c p = some s') :
    s'.turn = s.turn ∧ s'.selected_square = s.selected_square ∧
    s'.history = s.history ∧ s'.next_promotor = s.next_promotor ∧
    s'.squares.length = s.squares.length := by
  unfold State.setContent at h
  split at h
  · exact absurd h (by simp)
  · cases h.symm
    simp [List.length_set]

/-- Reading back the square written by `setContent`. -/
theorem setContent_sq_self {s s' : State} {c : Nat × Nat} {p : Option Piece}
    (h : s.setContent c p = some s') :
    ∃ sq0, s.sq c = some sq0 ∧ s'.sq c = some { sq0 with content := p } := by
  unfold State.setContent at h
  split at h
  · exact absurd h (by simp)
  · next sq0 hget =>
    cases h.symm
    refine ⟨sq0, hget, ?_⟩
    have hlt : idx c < s.squares.length := (List.get?_eq_some.mp hget).1
    simp [State.sq, List.get?_eq_getElem?, List.getElem?_set, hlt]

/-- Reading any other index after `setContent`. -/
theorem setContent_sq_other {s s' : State} {c c' : Nat × Nat} {p : Option Piece}
    (h : s.setContent c p = some s') (hne : idx c' ≠ idx c) :
    s'.sq c' = s.sq c' := by
  unfold State.setContent at h
  split at h
  · exact absurd h (by simp)
  · cases h.symm
    simp [State.sq, List.get?_eq_getElem?, List.getElem?_set_ne (Ne.symm hne)]

theorem pushHist_squares (s : State) (a b : Nat × Nat) :
    (pushHist s a b).squares = s.squares := rfl

theorem pushHist_history (s : State) (a b : Nat × Nat) :
    (pushHist s a b).history = s.history ++ [⟨a, b⟩] := rfl

/-- `runDummyMove` inverted into its reads and writes. -/
theorem runDummyMove_inv {s s' : State} {src dst : Nat × Nat}
    (h : runDummyMove s src dst = some s') :
    ∃ sq0 p s1, s.sq src = some sq0 ∧ sq0.content = some p ∧
      s.setContent dst (some { p with has_moved := true }) = some s1 ∧
      s1.setContent src none = some s' := by
  unfold runDummyMove at h
  simp only [Option.bind_eq_bind', Option.bind_eq_some] at h
  obtain ⟨sq0, hsq, p, hc, s1, h1, h2⟩ := h
  exact ⟨sq0, p, s1, hsq, hc, h1, h2⟩

/-- `runDummyMove` never touches the history (or the other non-board
fields). -/
theorem runDummyMove_fields {s s' : State} {src dst : Nat × Nat}
    (h : runDummyMove s src dst = some s') :
    s'.turn = s.turn ∧ s'.selected_square = s.selected_square ∧
    s'.history = s.history ∧ s'.next_promotor = s.next_promotor ∧
    s'.squares.length = s.squares.length := by
  obtain ⟨sq0, p, s1, _, _, h1, h2⟩ := runDummyMove_inv h
  have a := setContent_fields h1
  have b := setContent_fields h2
  exact ⟨b.1.trans a.1, b.2.1.trans a.2.1, b.2.2.1.trans a.2.2.1,
    b.2.2.2.1.trans a.2.2.2.1, b.2.2.2.2.trans a.2.2.2.2⟩

theorem en_passant_fields {s s' : State} {src dst : Nat × Nat}
    (h : en_passant s src dst = some s') :
    s'.turn = s.turn ∧ s'.selected_square = s.selected_square ∧
    s'.history = s.history ∧ s'.next_promotor = s.next_promotor ∧
    s'.squares.length = s.squares.length := by
  unfold en_passant at h
  simp only [Option.bind_eq_bind', Option.bind_eq_some] at h
  obtain ⟨sq0, _, s1, h1, s2, h2, h3⟩ := h
  have a := setContent_fields h1
  have b := setContent_fields h2
  have c := setContent_fields h3
  exact ⟨c.1.trans (b.1.trans a.1), c.2.1.trans (b.2.1.trans a.2.1),
    c.2.2.1.trans (b.2.2.1.trans a.2.2.1),
    c.2.2.2.1.trans (b.2.2.2.1.trans a.2.2.2.1),
    c.2.2.2.2.trans (b.2.2.2.2.trans a.2.2.2.2)⟩

theorem promote_pawn_fields {s s' : State} {src dst : Nat × Nat}
    (h : promote_pawn s src dst = some s') :
    s'.turn = s.turn ∧ s'.selected_square = s.selected_square ∧
    s'.history = s.history ∧ s'.next_promotor = s.next_promotor ∧
    s'.squares.length = s.squares.length := by
  unfold promote_pawn at h
  split at h
  · exact absurd h (by simp)
  · exact absurd h (by simp)
  · simp only [Option.bind_eq_bind', Option.bind_eq_some] at h
    obtain ⟨sq0, _, p, _, s1, h1, h2⟩ := h
    have a := setContent_fields h1
    have b := setContent_fields h2
    exact ⟨b.1.trans a.1, b.2.1.trans a.2.1, b.2.2.1.trans a.2.2.1,
      b.2.2.2.1.trans a.2.2.2.1, b.2.2.2.2.trans a.2.2.2.2⟩

theorem perform_castle_fields {s s' : State} {long : Bool} {col : ChessColour}
    (h : perform_castle s long col = some s') :
    s'.turn = s.turn ∧ s'.selected_square = s.selected_square ∧
    s'.history = s.history ∧ s'.next_promotor = s.next_promotor ∧
    s'.squares.length = s.squares.length := by
  unfold perform_castle at h
  simp only [Option.bind_eq_bind', Option.bind_eq_some] at h
  obtain ⟨kc, _, s1, h1, h2⟩ := h
  have a := runDummyMove_fields h1
  have b := runDummyMove_fields h2
  exact ⟨b.1.trans a.1, b.2.1.trans a.2.1, b.2.2.1.trans a.2.2.1,
    b.2.2.2.1.trans a.2.2.2.1, b.2.2.2.2.trans a.2.2.2.2⟩

/-- Every non-dummy move closure appends exactly one `PerformedMove` (the one
it pushes up front) and nothing else touches the history. -/
theorem runEffect_history {tag : EffectTag} {s s1 : State} {handled : Bool}
    (h : runEffect tag s = some (s1, handled)) (hnd : tag ≠ .dummy) :
    ∃ pm, s1.history = s.history ++ [pm] := by
  cases tag with
  | dummy => exact absurd rfl hnd
  | enPassantFn src dst =>
      simp only [runEffect, Option.map_eq_some'] at h
      obtain ⟨t, ht, he⟩ := h
      cases he
      exact ⟨⟨src, dst⟩, by
        have := (en_passant_fields ht).2.2.1
        simpa [pushHist] using this⟩
  | promoteFn src dst =>
      simp only [runEffect, Option.map_eq_some'] at h
      obtain ⟨t, ht, he⟩ := h
      cases he
      exact ⟨⟨src, dst⟩, by
        have := (promote_pawn_fields ht).2.2.1
        simpa [pushHist] using this⟩
  | doublePushFn src dst col =>
      simp only [runEffect, Option.map_eq_some'] at h
      obtain ⟨t, ht, he⟩ := h
      cases he
      exact ⟨⟨src, dst⟩, by
        have := (setContent_fields ht).2.2.1
        simpa [pushHist] using this⟩
  | defaultFn src dst =>
      simp only [runEffect] at h
      cases h
      exact ⟨⟨src, dst⟩, rfl⟩
  | castleFn long col src dst =>
      simp only [runEffect, Option.map_eq_some'] at h
      obtain ⟨t, ht, he⟩ := h
      cases he
      exact ⟨⟨src, dst⟩, by
        have := (perform_castle_fields ht).2.2.1
        simpa [pushHist] using this⟩

/-- `make_move` with a non-dummy move appends exactly one history record. -/
theorem make_move_history {s s' : State} {src : Nat × Nat} {m : ChessMove}
    (h : make_move s src m = some s') (hnd : m.function ≠ .dummy) :
    ∃ pm, s'.history = s.history ++ [pm] := by
  unfold make_move at h
  simp only [Option.bind_eq_bind', Option.bind_eq_some] at h
  obtain ⟨⟨s1, handled⟩, h1, h2⟩ := h
  obtain ⟨pm, hpm⟩ := runEffect_history h1 hnd
  cases handled with
  | true => simp only [if_pos] at h2; cases h2; exact ⟨pm, hpm⟩
  | false =>
      simp only [Bool.false_eq_true, if_neg, not_false_iff] at h2
      exact ⟨pm, ((runDummyMove_fields h2).2.2.1).trans hpm⟩

/-! ## Inversion lemmas for move generation -/

/-- A piece of `col.flip` colour occupies square `c`. -/
def enemyAt (s : State) (col : ChessColour) (c : Nat × Nat) : Prop :=
  ∃ sqc p, s.sq c = some sqc ∧ sqc.content = some p ∧ p.colour = col.flip

theorem get_moves_inv {s : State} {coord : Nat × Nat} {tfc : Bool} {ms : List ChessMove}
    (h : get_moves s coord tfc = some ms) :
    ∃ sq0 piece bm nonchecking castles,
      s.sq coord = some sq0 ∧ sq0.content = some piece ∧
      baseMoves s coord piece = some bm ∧
      (if tfc then checkFilter s coord piece.colour bm.1 else some bm.1) = some nonchecking ∧
      castleMoves s coord piece = some castles ∧
      ms = bm.2 ++ nonchecking.map (classifyMove coord piece) ++ castles := by
  unfold get_moves at h
  cases tfc with
  | true =>
      simp only [if_true, Option.bind_eq_bind', Option.bind_eq_some, Option.pure_def,
        Option.some.injEq] at h ⊢
      obtain ⟨sq0, hsq, piece, hc, bm, hbm, nonchecking, hnc, castles, hcs, hms⟩ := h
      exact ⟨sq0, piece, bm, nonchecking, castles, hsq, hc, hbm, hnc, hcs, hms.symm⟩
  | false =>
      simp only [Bool.false_eq_true, if_false, Option.pure_def, Option.some_bind,
        Option.bind_eq_bind', Option.bind_eq_some, Option.some.injEq] at h ⊢
      obtain ⟨sq0, hsq, piece, hc, bm, hbm, castles, hcs, hms⟩ := h
      exact ⟨sq0, piece, bm, bm.1, castles, hsq, hc, hbm, rfl, hcs, hms.symm⟩

theorem getMovesNoCheck_inv {s : State} {coord : Nat × Nat} {ms : List ChessMove}
    (h : getMovesNoCheck s coord = some ms) :
    ∃ sq0 piece bm castles,
      s.sq coord = some sq0 ∧ sq0.content = some piece ∧
      baseMoves s coord piece = some bm ∧
      castleMoves s coord piece = some castles ∧
      ms = bm.2 ++ bm.1.map (classifyMove coord piece) ++ castles := by
  unfold getMovesNoCheck at h
  simp only [Option.bind_eq_bind', Option.bind_eq_some, Option.pure_def,
    Option.some.injEq] at h
  obtain ⟨sq0, hsq, piece, hc, bm, hbm, castles, hcs, hms⟩ := h
  exact ⟨sq0, piece, bm, castles, hsq, hc, hbm, hcs, hms.symm⟩

/-- Every destination surviving the legality filter came from the candidate
set and its simulated plain relocation leaves the mover not in check. -/
theorem checkFilter_mem {s : State} {coord : Nat × Nat} {col : ChessColour} :
    ∀ {ds out : List (Nat × Nat)}, checkFilter s coord col ds = some out →
    ∀ {d}, d ∈ out →
      d ∈ ds ∧ ∃ tb, make_move s coord (ChessMove.dummy d) = some tb ∧
        is_in_check tb col = some false := by
  intro ds
  induction ds with
  | nil =>
      intro out h d hd
      unfold checkFilter at h
      cases h
      exact absurd hd (by simp)
  | cons a rest ih =>
      intro out h d hd
      unfold checkFilter at h
      simp only [Option.bind_eq_bind', Option.bind_eq_some, Option.pure_def,
        Option.some.injEq] at h
      obtain ⟨tb, htb, inchk, hchk, rest', hrest, hout⟩ := h
      cases inchk with
      | true =>
          subst hout
          simp only [if_pos] at hd
          obtain ⟨hmem, w⟩ := ih hrest hd
          exact ⟨List.mem_cons_of_mem _ hmem, w⟩
      | false =>
          subst hout
          simp only [Bool.false_eq_true, if_neg, not_false_iff] at hd
          rcases List.mem_cons.mp hd with rfl | hmem
          · exact ⟨List.mem_cons_self _ _, tb, htb, hchk⟩
          · obtain ⟨hmem', w⟩ := ih hrest hmem
            exact ⟨List.mem_cons_of_mem _ hmem', w⟩

theorem classifyMove_dst (coord : Nat × Nat) (piece : Piece) (m : Nat × Nat) :
    (classifyMove coord piece m).dst = m := by
  unfold classifyMove
  split
  · rfl
  · split <;> rfl

theorem classifyMove_fn (coord : Nat × Nat) (piece : Piece) (m : Nat × Nat) :
    (classifyMove coord piece m).function = .promoteFn coord m ∨
    (classifyMove coord piece m).function = .doublePushFn coord m piece.colour ∨
    (classifyMove coord piece m).function = .defaultFn coord m := by
  unfold classifyMove
  split
  · exact Or.inl rfl
  · split
    · exact Or.inr (Or.inl rfl)
    · exact Or.inr (Or.inr rfl)

/-- The rank one step ahead of a pawn (after the `u8` cast), as computed for
`up_coord` and the capture targets in the pawn block. -/
def pawnUpRank (piece : Piece) (coord : Nat × Nat) : Nat :=
  i8ToU8 (u8ToI8 coord.2 + (if piece.colour = .White then 1 else -1))

theorem capInsert_mem {s : State} {col : ChessColour} {tc : Nat × Nat}
    {ms out : List (Nat × Nat)} (h : capInsert s col tc ms = some out)
    {d : Nat × Nat} (hd : d ∈ out) :
    d ∈ ms ∨ (d = tc ∧ enemyAt s col tc) := by
  unfold capInsert at h
  simp only [Option.bind_eq_bind', Option.bind_eq_some, Option.pure_def,
    Option.some.injEq] at h
  obtain ⟨csq, hcs, hl⟩ := h
  subst hl
  cases hctn : csq.content with
  | none => simp only [hctn] at hd; exact Or.inl hd
  | some p =>
      simp only [hctn] at hd
      by_cases hp : p.colour = col.flip
      · rw [if_pos hp] at hd
        rcases mem_hinsert.mp hd with hmem | rfl
        · exact Or.inl hmem
        · exact Or.inr ⟨rfl, csq, p, hcs, hctn, hp⟩
      · rw [if_neg hp] at hd
        exact Or.inl hd

theorem epCandidate_mem {s : State} {coord : Nat × Nat} {adjFile : Nat}
    {dst0 : Nat × Nat} {l : List ChessMove} (h : epCandidate s coord adjFile dst0 = some l)
    {m : ChessMove} (hm : m ∈ l) : m = ⟨dst0, .enPassantFn coord dst0⟩ := by
  unfold epCandidate at h
  simp only [Option.bind_eq_bind', Option.bind_eq_some, Option.pure_def,
    Option.some.injEq] at h
  obtain ⟨asq, _, hl⟩ := h
  subst hl
  cases hctn : asq.content with
  | none => simp only [hctn] at hm; exact absurd hm (by simp)
  | some p =>
      simp only [hctn] at hm
      by_cases hp : p.en_passanteable
      · rw [if_pos hp] at hm
        simpa using hm
      · rw [if_neg hp] at hm; exact absurd hm (by simp)

theorem doubleRemove_sub {s : State} {piece : Piece} {du : Nat × Nat}
    {moves0 out : List (Nat × Nat)} (h : doubleRemove s piece du moves0 = some out)
    {d : Nat × Nat} (hd : d ∈ out) : d ∈ moves0 := by
  unfold doubleRemove at h
  by_cases hmv : piece.has_moved
  · rw [if_pos hmv] at h; cases h; exact hd
  · rw [if_neg hmv] at h
    cases hsq : s.sq du with
    | none => rw [hsq] at h; exact absurd h (by simp)
    | some dsq =>
        rw [hsq] at h
        cases h
        by_cases hocc : dsq.content.isSome
        · rw [if_pos hocc] at hd; exact (mem_hremove.mp hd).1
        · rw [if_neg hocc] at hd; exact hd

theorem leftCaps_moves {s : State} {coord : Nat × Nat} {piece : Piece} {upRank : Nat}
    {moves2 : List (Nat × Nat)} {res : List (Nat × Nat) × List ChessMove}
    (h : leftCaps s coord piece upRank moves2 = some res)
    {d : Nat × Nat} (hd : d ∈ res.1) :
    d ∈ moves2 ∨ (1 ≤ coord.1 ∧ d = (coord.1 - 1, upRank) ∧
      enemyAt s piece.colour (coord.1 - 1, upRank)) := by
  unfold leftCaps at h
  by_cases h1 : 1 ≤ coord.1
  · rw [if_pos h1] at h
    simp only [Option.bind_eq_bind', Option.bind_eq_some, Option.pure_def,
      Option.some.injEq] at h
    obtain ⟨m3, hc3, e1, _, hres⟩ := h
    subst hres
    rcases capInsert_mem hc3 hd with hmem | ⟨hdeq, hen⟩
    · exact Or.inl hmem
    · exact Or.inr ⟨h1, hdeq, hen⟩
  · rw [if_neg h1] at h
    cases h
    exact Or.inl hd

theorem leftCaps_ep {s : State} {coord : Nat × Nat} {piece : Piece} {upRank : Nat}
    {moves2 : List (Nat × Nat)} {res : List (Nat × Nat) × List ChessMove}
    (h : leftCaps s coord piece upRank moves2 = some res)
    {m : ChessMove} (hm : m ∈ res.2) :
    1 ≤ coord.1 ∧ m = ⟨(coord.1 - 1, upRank), .enPassantFn coord (coord.1 - 1, upRank)⟩ := by
  unfold leftCaps at h
  by_cases h1 : 1 ≤ coord.1
  · rw [if_pos h1] at h
    simp only [Option.bind_eq_bind', Option.bind_eq_some, Option.pure_def,
      Option.some.injEq] at h
    obtain ⟨m3, _, e1, he1, hres⟩ := h
    subst hres
    exact ⟨h1, epCandidate_mem he1 hm⟩
  · rw [if_neg h1] at h
    cases h
    exact absurd hm (by simp)

theorem rightCaps_moves {s : State} {coord : Nat × Nat} {piece : Piece} {upRank : Nat}
    {moves3 : List (Nat × Nat)} {res : List (Nat × Nat) × List ChessMove}
    (h : rightCaps s coord piece upRank moves3 = some res)
    {d : Nat × Nat} (hd : d ∈ res.1) :
    d ∈ moves3 ∨ (coord.1 ≤ 6 ∧ d = (coord.1 + 1, upRank) ∧
      enemyAt s piece.colour (coord.1 + 1, upRank)) := by
  unfold rightCaps at h
  by_cases h6 : coord.1 ≤ 6
  · rw [if_pos h6] at h
    simp only [Option.bind_eq_bind', Option.bind_eq_some, Option.pure_def,
      Option.some.injEq] at h
    obtain ⟨m4, hc4, e2, _, hres⟩ := h
    subst hres
    rcases capInsert_mem hc4 hd with hmem | ⟨hdeq, hen⟩
    · exact Or.inl hmem
    · exact Or.inr ⟨h6, hdeq, hen⟩
  · rw [if_neg h6] at h
    cases h
    exact Or.inl hd

theorem rightCaps_ep {s : State} {coord : Nat × Nat} {piece : Piece} {upRank : Nat}
    {moves3 : List (Nat × Nat)} {res : List (Nat × Nat) × List ChessMove}
    (h : rightCaps s coord piece upRank moves3 = some res)
    {m : ChessMove} (hm : m ∈ res.2) :
    coord.1 ≤ 6 ∧ m = ⟨(coord.1 + 1, upRank), .enPassantFn coord (coord.1 + 1, upRank)⟩ := by
  unfold rightCaps at h
  by_cases h6 : coord.1 ≤ 6
  · rw [if_pos h6] at h
    simp only [Option.bind_eq_bind', Option.bind_eq_some, Option.pure_def,
      Option.some.injEq] at h
    obtain ⟨m4, _, e2, he2, hres⟩ := h
    subst hres
    exact ⟨h6, epCandidate_mem he2 hm⟩
  · rw [if_neg h6] at h
    cases h
    exact absurd hm (by simp)

/-- Structural inversion of the pawn block. -/
theorem pawnExtras_inv {s : State} {coord : Nat × Nat} {piece : Piece}
    {moves0 mv : List (Nat × Nat)} {ep : List ChessMove}
    (h : pawnExtras s coord piece moves0 = some (mv, ep)) :
    ∃ moves1, doubleRemove s piece
        (coord.1, i8ToU8 (u8ToI8 coord.2 + 2 * (if piece.colour = .White then 1 else -1))) moves0 =
        some moves1 ∧
      ((pawnUpRank piece coord < 8 ∧
        ∃ usq lres rres, s.sq (coord.1, pawnUpRank piece coord) = some usq ∧
          leftCaps s coord piece (pawnUpRank piece coord)
            (if usq.content.isSome then hremove moves1 (coord.1, pawnUpRank piece coord) else moves1) =
            some lres ∧
          rightCaps s coord piece (pawnUpRank piece coord) lres.1 = some rres ∧
          mv = rres.1 ∧ ep = lres.2 ++ rres.2) ∨
       (¬ pawnUpRank piece coord < 8 ∧ mv = moves1 ∧ ep = [])) := by
  unfold pawnExtras at h
  simp only [Option.bind_eq_bind', Option.bind_eq_some] at h
  obtain ⟨moves1, hm1, h⟩ := h
  refine ⟨moves1, hm1, ?_⟩
  by_cases hup : pawnUpRank piece coord < 8
  · rw [if_pos (show i8ToU8 (u8ToI8 coord.2 + (if piece.colour = .White then 1 else -1)) < 8 from hup)] at h
    simp only [Option.bind_eq_bind', Option.bind_eq_some, Option.pure_def,
      Option.some.injEq, Prod.mk.injEq] at h
    obtain ⟨usq, husq, lres, hl, rres, hr, hmv, hep⟩ := h
    exact Or.inl ⟨hup, usq, lres, rres, husq, hl, hr, hmv.symm, hep.symm⟩
  · rw [if_neg (show ¬ i8ToU8 (u8ToI8 coord.2 + (if piece.colour = .White then 1 else -1)) < 8 from hup)] at h
    simp only [Option.pure_def, Option.some.injEq, Prod.mk.injEq] at h
    exact Or.inr ⟨hup, h.1.symm, h.2.symm⟩

/-- Every en-passant entry the pawn block pushes targets the diagonally
forward square on an adjacent file and carries the en-passant closure for the
queried source square. -/
theorem pawnExtras_ep {s : State} {coord : Nat × Nat} {piece : Piece}
    {moves0 mv : List (Nat × Nat)} {ep : List ChessMove}
    (h : pawnExtras s coord piece moves0 = some (mv, ep))
    {m : ChessMove} (hm : m ∈ ep) :
    ∃ d, m = ⟨d, .enPassantFn coord d⟩ ∧
      ((1 ≤ coord.1 ∧ d = (coord.1 - 1, pawnUpRank piece coord)) ∨
       (coord.1 ≤ 6 ∧ d = (coord.1 + 1, pawnUpRank piece coord))) := by
  obtain ⟨moves1, _, hrest⟩ := pawnExtras_inv h
  rcases hrest with ⟨_, usq, lres, rres, _, hl, hr, _, hep⟩ | ⟨_, _, hep⟩
  · subst hep
    rcases List.mem_append.mp hm with hml | hmr
    · obtain ⟨h1, hmeq⟩ := leftCaps_ep hl hml
      exact ⟨_, hmeq, Or.inl ⟨h1, rfl⟩⟩
    · obtain ⟨h6, hmeq⟩ := rightCaps_ep hr hmr
      exact ⟨_, hmeq, Or.inr ⟨h6, rfl⟩⟩
  · subst hep
    exact absurd hm (by simp)

/-- Every destination in the pawn block's final `moves` set either was
already a forward candidate or is a diagonal capture of an enemy piece on an
adjacent file. -/
theorem pawnExtras_moves {s : State} {coord : Nat × Nat} {piece : Piece}
    {moves0 mv : List (Nat × Nat)} {ep : List ChessMove}
    (h : pawnExtras s coord piece moves0 = some (mv, ep))
    {d : Nat × Nat} (hd : d ∈ mv) :
    d ∈ moves0 ∨
      pawnUpRank piece coord < 8 ∧
      ((1 ≤ coord.1 ∧ d = (coord.1 - 1, pawnUpRank piece coord)) ∨
       (coord.1 ≤ 6 ∧ d = (coord.1 + 1, pawnUpRank piece coord))) ∧
      enemyAt s piece.colour d := by
  obtain ⟨moves1, hm1, hrest⟩ := pawnExtras_inv h
  rcases hrest with ⟨hup, usq, lres, rres, _, hl, hr, hmv, _⟩ | ⟨_, hmv, _⟩
  · subst hmv
    rcases rightCaps_moves hr hd with hmem | ⟨h6, hdeq, hen⟩
    · rcases leftCaps_moves hl hmem with hmem2 | ⟨h1, hdeq, hen⟩
      · have : d ∈ moves1 := by
          by_cases hocc : usq.content.isSome
          · rw [if_pos hocc] at hmem2; exact (mem_hremove.mp hmem2).1
          · rw [if_neg hocc] at hmem2; exact hmem2
        exact Or.inl (doubleRemove_sub hm1 this)
      · exact Or.inr ⟨hup, Or.inl ⟨h1, hdeq⟩, hdeq ▸ hen⟩
    · exact Or.inr ⟨hup, Or.inr ⟨h6, hdeq⟩, hdeq ▸ hen⟩
  · subst hmv
    exact Or.inl (doubleRemove_sub hm1 hd)

/-- Square `c` is readable and is empty or holds an enemy of `col`. -/
def emptyOrEnemy (s : State) (col : ChessColour) (c : Nat × Nat) : Prop :=
  ∃ sqc, s.sq c = some sqc ∧
    (sqc.content = none ∨ ∃ p, sqc.content = some p ∧ p.colour = col.flip)

theorem enemyAt_emptyOrEnemy {s : State} {col : ChessColour} {c : Nat × Nat}
    (h : enemyAt s col c) : emptyOrEnemy s col c := by
  obtain ⟨sqc, p, h1, h2, h3⟩ := h
  exact ⟨sqc, h1, Or.inr ⟨p, h2, h3⟩⟩

/-- Ray-cast membership: any destination the sliding loop adds is the
starting square, was already present, or is an on-board square that is empty
or enemy-occupied. -/
theorem slideRay_mem {s : State} {col : ChessColour} {dir : Int × Int} :
    ∀ {fuel : Nat} {cur : Nat × Nat} {ms out : List (Nat × Nat)},
      slideRay s col dir fuel cur ms = some out → ∀ {d}, d ∈ out →
      d ∈ ms ∨ d = cur ∨ (d.1 < 8 ∧ d.2 < 8 ∧ emptyOrEnemy s col d) := by
  intro fuel
  induction fuel with
  | zero =>
      intro cur ms out h d hd
      unfold slideRay at h
      cases h
      exact Or.inl hd
  | succ n ih =>
      intro cur ms out h d hd
      unfold slideRay at h
      by_cases hrange : (0 : Int) ≤ u8ToI8 cur.1 + dir.1 ∧ u8ToI8 cur.1 + dir.1 < 8 ∧
          (0 : Int) ≤ u8ToI8 cur.2 + dir.2 ∧ u8ToI8 cur.2 + dir.2 < 8
      · rw [if_pos hrange] at h
        have hnv1 : (i8ToU8 (u8ToI8 cur.1 + dir.1)) < 8 := by
          unfold i8ToU8
          have h1 := hrange.1
          have h2 := hrange.2.1
          omega
        have hnv2 : (i8ToU8 (u8ToI8 cur.2 + dir.2)) < 8 := by
          unfold i8ToU8
          have h1 := hrange.2.2.1
          have h2 := hrange.2.2.2
          omega
        cases hsq : s.sq (i8ToU8 (u8ToI8 cur.1 + dir.1), i8ToU8 (u8ToI8 cur.2 + dir.2)) with
        | none => simp only [hsq] at h; exact absurd h (by simp)
        | some sqn =>
            simp only [hsq] at h
            cases hctn : sqn.content with
            | some hit =>
                simp only [hctn] at h
                by_cases hcol : hit.colour = col.flip
                · rw [if_pos hcol] at h
                  cases h
                  rcases mem_hinsert.mp hd with hd' | rfl
                  · rcases mem_hinsert.mp hd' with hd'' | rfl
                    · exact Or.inl hd''
                    · exact Or.inr (Or.inl rfl)
                  · exact Or.inr (Or.inr ⟨hnv1, hnv2, sqn, hsq, Or.inr ⟨hit, hctn, hcol⟩⟩)
                · rw [if_neg hcol] at h
                  cases h
                  rcases mem_hinsert.mp hd with hd' | rfl
                  · exact Or.inl hd'
                  · exact Or.inr (Or.inl rfl)
            | none =>
                simp only [hctn] at h
                rcases ih h hd with hd' | rfl | hP
                · rcases mem_hinsert.mp hd' with hd'' | rfl
                  · exact Or.inl hd''
                  · exact Or.inr (Or.inr ⟨hnv1, hnv2, sqn, hsq, Or.inl hctn⟩)
                · exact Or.inr (Or.inr ⟨hnv1, hnv2, sqn, hsq, Or.inl hctn⟩)
                · exact Or.inr (Or.inr hP)
      · rw [if_neg hrange] at h
        cases h
        exact Or.inl hd

theorem slideAll_mem {s : State} {col : ChessColour} {coord : Nat × Nat} :
    ∀ {offs : List (Int × Int)} {ms out : List (Nat × Nat)},
      slideAll s col coord offs ms = some out → ∀ {d}, d ∈ out →
      d ∈ ms ∨ d = coord ∨ (d.1 < 8 ∧ d.2 < 8 ∧ emptyOrEnemy s col d) := by
  intro offs
  induction offs with
  | nil =>
      intro ms out h d hd
      unfold slideAll at h
      cases h
      exact Or.inl hd
  | cons o rest ih =>
      intro ms out h d hd
      unfold slideAll at h
      simp only [Option.bind_eq_bind', Option.bind_eq_some] at h
      obtain ⟨ms', hray, hrest⟩ := h
      rcases ih hrest hd with hd' | hc | hP
      · rcases slideRay_mem hray hd' with h0 | rfl | hP
        · exact Or.inl h0
        · exact Or.inr (Or.inl rfl)
        · exact Or.inr (Or.inr hP)
      · exact Or.inr (Or.inl hc)
      · exact Or.inr (Or.inr hP)

/-- Stepping-pipeline membership: every destination kept is on-board and
empty or enemy-occupied (or was already in the accumulator). -/
theorem stepDests_mem {s : State} {col : ChessColour} {coord : Nat × Nat} :
    ∀ {offs : List (Int × Int)} {acc out : List (Nat × Nat)},
      stepDests s col coord offs acc = some out → ∀ {d}, d ∈ out →
      d ∈ acc ∨ (d.1 < 8 ∧ d.2 < 8 ∧ emptyOrEnemy s col d) := by
  intro offs
  induction offs with
  | nil =>
      intro acc out h d hd
      unfold stepDests at h
      cases h
      exact Or.inl hd
  | cons o rest ih =>
      intro acc out h d hd
      unfold stepDests at h
      by_cases hrange : (0 : Int) ≤ u8ToI8 coord.1 + o.1 ∧ u8ToI8 coord.1 + o.1 < 8 ∧
          (0 : Int) ≤ u8ToI8 coord.2 + o.2 ∧ u8ToI8 coord.2 + o.2 < 8
      · rw [if_pos hrange] at h
        have hnv1 : (i8ToU8 (u8ToI8 coord.1 + o.1)) < 8 := by
          unfold i8ToU8
          have h1 := hrange.1
          have h2 := hrange.2.1
          omega
        have hnv2 : (i8ToU8 (u8ToI8 coord.2 + o.2)) < 8 := by
          unfold i8ToU8
          have h1 := hrange.2.2.1
          have h2 := hrange.2.2.2
          omega
        cases hsq : s.sq (i8ToU8 (u8ToI8 coord.1 + o.1), i8ToU8 (u8ToI8 coord.2 + o.2)) with
        | none => simp only [hsq] at h; exact absurd h (by simp)
        | some sqn =>
            simp only [hsq] at h
            cases hctn : sqn.content with
            | none =>
                simp only [hctn] at h
                rcases ih h hd with hd' | hP
                · rcases mem_hinsert.mp hd' with hd'' | rfl
                  · exact Or.inl hd''
                  · exact Or.inr ⟨hnv1, hnv2, sqn, hsq, Or.inl hctn⟩
                · exact Or.inr hP
            | some p =>
                simp only [hctn] at h
                by_cases hcol : p.colour = col.flip
                · rw [if_pos hcol] at h
                  rcases ih h hd with hd' | hP
                  · rcases mem_hinsert.mp hd' with hd'' | rfl
                    · exact Or.inl hd''
                    · exact Or.inr ⟨hnv1, hnv2, sqn, hsq, Or.inr ⟨p, hctn, hcol⟩⟩
                  · exact Or.inr hP
                · rw [if_neg hcol] at h
                  rcases ih h hd with hd' | hP
                  · exact Or.inl hd'
                  · exact Or.inr hP
      · rw [if_neg hrange] at h
        rcases ih h hd with hd' | hP
        · exact Or.inl hd'
        · exact Or.inr hP

/-- Every candidate destination in the base `moves` set is an on-board
square holding no piece of the mover's own colour. -/
theorem baseMoves_mem {s : State} {coord : Nat × Nat} {piece : Piece}
    {base : List (Nat × Nat)} {ep : List ChessMove}
    (hc1 : coord.1 < 8) (h : baseMoves s coord piece = some (base, ep))
    {d : Nat × Nat} (hd : d ∈ base) :
    d.1 < 8 ∧ d.2 < 8 ∧ emptyOrEnemy s piece.colour d := by
  unfold baseMoves at h
  by_cases hsl : piece.kind.is_sliding
  · rw [if_pos hsl] at h
    simp only [Option.bind_eq_bind', Option.bind_eq_some, Option.pure_def,
      Option.some.injEq, Prod.mk.injEq] at h
    obtain ⟨ms, hms, hbase, _⟩ := h
    subst hbase
    obtain ⟨hmem, hne⟩ := mem_hremove.mp hd
    rcases slideAll_mem hms hmem with h0 | rfl | hP
    · exact absurd h0 (by simp)
    · exact absurd rfl hne
    · exact hP
  · rw [if_neg hsl] at h
    simp only [Option.bind_eq_bind', Option.bind_eq_some] at h
    obtain ⟨ms, hms, h⟩ := h
    by_cases hpk : piece.kind = .Pawn
    · rw [if_pos hpk] at h
      rcases pawnExtras_moves h hd with hmem | ⟨hup, hshape, hen⟩
      · rcases stepDests_mem hms hmem with h0 | hP
        · exact absurd h0 (by simp)
        · exact hP
      · refine ⟨?_, ?_, enemyAt_emptyOrEnemy hen⟩
        · rcases hshape with ⟨h1, rfl⟩ | ⟨h6, rfl⟩ <;> omega
        · rcases hshape with ⟨h1, rfl⟩ | ⟨h6, rfl⟩ <;> exact hup
    · rw [if_neg hpk] at h
      simp only [Option.pure_def, Option.some.injEq, Prod.mk.injEq] at h
      obtain ⟨hbase, _⟩ := h
      subst hbase
      rcases stepDests_mem hms hd with h0 | hP
      · exact absurd h0 (by simp)
      · exact hP

/-- The en-passant entries attached during candidate generation exist only
for pawns and have the shape produced by the pawn block. -/
theorem baseMoves_ep {s : State} {coord : Nat × Nat} {piece : Piece}
    {base : List (Nat × Nat)} {ep : List ChessMove}
    (h : baseMoves s coord piece = some (base, ep))
    {m : ChessMove} (hm : m ∈ ep) :
    piece.kind = .Pawn ∧ ∃ d, m = ⟨d, .enPassantFn coord d⟩ ∧
      ((1 ≤ coord.1 ∧ d = (coord.1 - 1, pawnUpRank piece coord)) ∨
       (coord.1 ≤ 6 ∧ d = (coord.1 + 1, pawnUpRank piece coord))) := by
  unfold baseMoves at h
  by_cases hsl : piece.kind.is_sliding
  · rw [if_pos hsl] at h
    simp only [Option.bind_eq_bind', Option.bind_eq_some, Option.pure_def,
      Option.some.injEq, Prod.mk.injEq] at h
    obtain ⟨ms, hms, _, hep⟩ := h
    subst hep
    exact absurd hm (by simp)
  · rw [if_neg hsl] at h
    simp only [Option.bind_eq_bind', Option.bind_eq_some] at h
    obtain ⟨ms, hms, h⟩ := h
    by_cases hpk : piece.kind = .Pawn
    · rw [if_pos hpk] at h
      exact ⟨hpk, pawnExtras_ep h hm⟩
    · rw [if_neg hpk] at h
      simp only [Option.pure_def, Option.some.injEq, Prod.mk.injEq] at h
      obtain ⟨_, hep⟩ := h
      subst hep
      exact absurd hm (by simp)

/-- Inversion of the long-castle arm: the produced move exists only under
the full set of checked conditions. -/
theorem longCastleList_mem {s : State} {piece : Piece} {kc coord : Nat × Nat}
    {cs : List ChessMove} (h : longCastleList s piece kc coord = some cs)
    {m : ChessMove} (hm : m ∈ cs) :
    ∃ asq pa b1 b2 b3,
      s.sq (0, kc.2) = some asq ∧ asq.content = some pa ∧
      pa.kind = .Rook ∧ pa.has_moved = false ∧
      s.sq (1, kc.2) = some b1 ∧ b1.content = none ∧
      s.sq (2, kc.2) = some b2 ∧ b2.content = none ∧
      s.sq (3, kc.2) = some b3 ∧ b3.content = none ∧
      m = ⟨(u8sub kc.1 2, kc.2), .castleFn true piece.colour coord (u8sub kc.1 2, kc.2)⟩ := by
  unfold longCastleList at h
  simp only [Option.bind_eq_bind', Option.bind_eq_some] at h
  obtain ⟨asq, hasq, h⟩ := h
  cases hctn : asq.content with
  | none => simp only [hctn, Option.pure_def, Option.some.injEq] at h; subst h; exact absurd hm (by simp)
  | some pa =>
      simp only [hctn] at h
      by_cases hrk : pa.kind = .Rook ∧ pa.has_moved = false
      · rw [if_pos hrk] at h
        simp only [Option.bind_eq_bind', Option.bind_eq_some] at h
        obtain ⟨b1, hb1, h⟩ := h
        by_cases he1 : b1.content.isNone
        · rw [if_pos he1] at h
          simp only [Option.bind_eq_bind', Option.bind_eq_some] at h
          obtain ⟨b2, hb2, h⟩ := h
          by_cases he2 : b2.content.isNone
          · rw [if_pos he2] at h
            simp only [Option.bind_eq_bind', Option.bind_eq_some] at h
            obtain ⟨b3, hb3, h⟩ := h
            by_cases he3 : b3.content.isNone
            · rw [if_pos he3] at h
              simp only [Option.pure_def, Option.some.injEq] at h
              subst h
              simp only [List.mem_singleton] at hm
              exact ⟨asq, pa, b1, b2, b3, hasq, hctn, hrk.1, hrk.2, hb1,
                Option.isNone_iff_eq_none.mp he1, hb2, Option.isNone_iff_eq_none.mp he2,
                hb3, Option.isNone_iff_eq_none.mp he3, hm⟩
            · rw [if_neg he3] at h
              simp only [Option.pure_def, Option.some.injEq] at h
              subst h; exact absurd hm (by simp)
          · rw [if_neg he2] at h
            simp only [Option.pure_def, Option.some.injEq] at h
            subst h; exact absurd hm (by simp)
        · rw [if_neg he1] at h
          simp only [Option.pure_def, Option.some.injEq] at h
          subst h; exact absurd hm (by simp)
      · rw [if_neg hrk] at h
        simp only [Option.pure_def, Option.some.injEq] at h
        subst h; exact absurd hm (by simp)

/-- Inversion of the short-castle arm. -/
theorem shortCastleList_mem {s : State} {piece : Piece} {kc coord : Nat × Nat}
    {cs : List ChessMove} (h : shortCastleList s piece kc coord = some cs)
    {m : ChessMove} (hm : m ∈ cs) :
    ∃ hsq ph b5 b6,
      s.sq (7, kc.2) = some hsq ∧ hsq.content = some ph ∧
      ph.kind = .Rook ∧ ph.has_moved = false ∧
      s.sq (5, kc.2) = some b5 ∧ b5.content = none ∧
      s.sq (6, kc.2) = some b6 ∧ b6.content = none ∧
      m = ⟨(u8add kc.1 2, kc.2), .castleFn false piece.colour coord (u8add kc.1 2, kc.2)⟩ := by
  unfold shortCastleList at h
  simp only [Option.bind_eq_bind', Option.bind_eq_some] at h
  obtain ⟨hsq, hhsq, h⟩ := h
  cases hctn : hsq.content with
  | none => simp only [hctn, Option.pure_def, Option.some.injEq] at h; subst h; exact absurd hm (by simp)
  | some ph =>
      simp only [hctn] at h
      by_cases hrk : ph.kind = .Rook ∧ ph.has_moved = false
      · rw [if_pos hrk] at h
        simp only [Option.bind_eq_bind', Option.bind_eq_some] at h
        obtain ⟨b5, hb5, h⟩ := h
        by_cases he5 : b5.content.isNone
        · rw [if_pos he5] at h
          simp only [Option.bind_eq_bind', Option.bind_eq_some] at h
          obtain ⟨b6, hb6, h⟩ := h
          by_cases he6 : b6.content.isNone
          · rw [if_pos he6] at h
            simp only [Option.pure_def, Option.some.injEq] at h
            subst h
            simp only [List.mem_singleton] at hm
            exact ⟨hsq, ph, b5, b6, hhsq, hctn, hrk.1, hrk.2, hb5,
              Option.isNone_iff_eq_none.mp he5, hb6, Option.isNone_iff_eq_none.mp he6, hm⟩
          · rw [if_neg he6] at h
            simp only [Option.pure_def, Option.some.injEq] at h
            subst h; exact absurd hm (by simp)
        · rw [if_neg he5] at h
          simp only [Option.pure_def, Option.some.injEq] at h
          subst h; exact absurd hm (by simp)
      · rw [if_neg hrk] at h
        simp only [Option.pure_def, Option.some.injEq] at h
        subst h; exact absurd hm (by simp)

/-- Inversion of the castling block: any member comes from one of the two
arms, with the king located at the queried square and unmoved. -/
theorem castleMoves_mem {s : State} {coord : Nat × Nat} {piece : Piece}
    {cs : List ChessMove} (h : castleMoves s coord piece = some cs)
    {m : ChessMove} (hm : m ∈ cs) :
    ∃ kc ksq kp, get_king_coord s piece.colour = some kc ∧ coord = kc ∧
      s.sq kc = some ksq ∧ ksq.content = some kp ∧ kp.has_moved = false ∧
      ∃ longList shortList, longCastleList s piece kc coord = some longList ∧
        shortCastleList s piece kc coord = some shortList ∧
        cs = longList ++ shortList := by
  unfold castleMoves at h
  simp only [Option.bind_eq_bind', Option.bind_eq_some] at h
  obtain ⟨kc, hkc, h⟩ := h
  by_cases hceq : coord = kc
  · rw [if_pos hceq] at h
    simp only [Option.bind_eq_bind', Option.bind_eq_some] at h
    obtain ⟨ksq, hksq, kp, hkp, h⟩ := h
    by_cases hmv : kp.has_moved
    · rw [if_pos hmv] at h
      simp only [Option.pure_def, Option.some.injEq] at h
      subst h; exact absurd hm (by simp)
    · rw [if_neg hmv] at h
      simp only [Option.bind_eq_bind', Option.bind_eq_some, Option.pure_def,
        Option.some.injEq] at h
      obtain ⟨longList, hlong, shortList, hshort, hcs⟩ := h
      exact ⟨kc, ksq, kp, hkc, hceq, hksq, hkp, Bool.eq_false_iff.mpr hmv,
        longList, shortList, hlong, hshort, hcs.symm⟩
  · rw [if_neg hceq] at h
    simp only [Option.pure_def, Option.some.injEq] at h
    subst h; exact absurd hm (by simp)

/-- A classified move carries the double-push closure exactly under the
conditions of state.rs lines 405-408 (and not the promotion test of line
394). -/
theorem classifyMove_doublePush_iff (coord : Nat × Nat) (piece : Piece) (m : Nat × Nat)
    {a b : Nat × Nat} {col : ChessColour} :
    (classifyMove coord piece m).function = .doublePushFn a b col ↔
      (a = coord ∧ b = m ∧ col = piece.colour ∧
       ¬ ((piece.kind = .Pawn ∧ m.2 = 0) ∨ m.2 = 7) ∧
       piece.kind = .Pawn ∧ (u8ToI8 m.2 - u8ToI8 coord.2).natAbs = 2 ∧
       piece.has_moved = false) := by
  unfold classifyMove
  split
  · next hcond =>
      constructor
      · intro h; exact absurd h (by simp)
      · rintro ⟨_, _, _, hn, _⟩; exact absurd hcond hn
  · next hcond =>
      split
      · next hdp =>
          constructor
          · rintro h
            injection h with h1 h2 h3
            exact ⟨h1.symm, h2.symm, h3.symm, hcond, hdp.1, hdp.2.1, hdp.2.2⟩
          · rintro ⟨rfl, rfl, rfl, _⟩; rfl
      · next hdp =>
          constructor
          · intro h; exact absurd h (by simp)
          · rintro ⟨_, _, _, _, h1, h2, h3⟩; exact absurd ⟨h1, h2, h3⟩ hdp

/-! ## Concrete fixture states -/

/-- Pinned-pawn en-passant fixture: White pawn e5, Black pawn d5 flagged
en-passant-eligible, White king f6, Black bishop a1 (pinning e5 along the
a1-f6 diagonal), Black king h8. -/
def stC1 : State := mkState
  (place (place (place (place (place emptyBoard
    (4, 4) ⟨.Pawn, .White, true, false⟩)
    (3, 4) ⟨.Pawn, .Black, true, true⟩)
    (5, 5) ⟨.King, .White, true, false⟩)
    (0, 0) ⟨.Bishop, .Black, true, false⟩)
    (7, 7) ⟨.King, .Black, true, false⟩)

/-- Kings-and-pawn fixture: unmoved White pawn e2, White king a1, Black
king h8. -/
def stPawnE2 : State := mkState
  (place (place (place emptyBoard
    (4, 1) ⟨.Pawn, .White, false, false⟩)
    (0, 0) ⟨.King, .White, true, false⟩)
    (7, 7) ⟨.King, .Black, true, false⟩)

/-- Non-pawn promotion fixture: White rook a7 (one move from rank 7), White
king e1, Black king h8. -/
def stC3 : State := mkState
  (place (place (place emptyBoard
    (0, 6) ⟨.Rook, .White, true, false⟩)
    (4, 0) ⟨.King, .White, true, false⟩)
    (7, 7) ⟨.King, .Black, true, false⟩)

/-- Blocked-pawn fixture: unmoved White pawn e2, Black knight e3 directly in
front of it, e4 empty; kings at a1 / h8. -/
def stC4 : State := mkState
  (place (place (place (place emptyBoard
    (4, 1) ⟨.Pawn, .White, false, false⟩)
    (4, 2) ⟨.Knight, .Black, true, false⟩)
    (0, 0) ⟨.King, .White, true, false⟩)
    (7, 7) ⟨.King, .Black, true, false⟩)

/-- Castle-ready fixture: unmoved White king e1 and rook h1, f1/g1 empty,
Black king e8. -/
def stC5 : State := mkState
  (place (place (place emptyBoard
    (4, 0) ⟨.King, .White, false, false⟩)
    (7, 0) ⟨.Rook, .White, false, false⟩)
    (4, 7) ⟨.King, .Black, true, false⟩)

/-- Wrong-colour-rook fixture: unmoved White king e1, unmoved **Black** rook
h1, f1/g1 empty, Black king e8. -/
def stC6 : State := mkState
  (place (place (place emptyBoard
    (4, 0) ⟨.King, .White, false, false⟩)
    (7, 0) ⟨.Rook, .Black, false, false⟩)
    (4, 7) ⟨.King, .Black, true, false⟩)

/-- En-passant-to-own-king fixture: White pawn e5, Black pawn d5 flagged
en-passant-eligible, White king on d6 (the en-passant target square), Black
king h8.  No Black piece attacks d6. -/
def stC7 : State := mkState
  (place (place (place (place emptyBoard
    (4, 4) ⟨.Pawn, .White, true, false⟩)
    (3, 4) ⟨.Pawn, .Black, true, true⟩)
    (3, 5) ⟨.King, .White, true, false⟩)
    (7, 7) ⟨.King, .Black, true, false⟩)

/-! ## Claim C3 -/

/-- **C3** (code bug).  Because of the Rust operator precedence on state.rs
line 394 (`piece.kind == Pawn && m.1 == 0 || m.1 == 7` parses as
`(piece.kind == Pawn && m.1 == 0) || m.1 == 7`), the promotion closure is
attached to **every** generated move whose destination rank is 7, pawn or
not.  In `stC3` the White **rook** a7 receives a promotion move to a8, and
applying it replaces the rook by the currently selected promotion kind
(Queen): a generated move of a non-pawn piece changes the piece's kind,
contradicting the claim. -/
theorem c3_rook_gets_promotion_effect :
    ((get_moves stC3 (0, 6) true).map
      (fun ms => decide ((⟨(0, 7), .promoteFn (0, 6) (0, 7)⟩ : ChessMove) ∈ ms)) = some true) ∧
    ((make_move stC3 (0, 6) ⟨(0, 7), .promoteFn (0, 6) (0, 7)⟩).bind
      (fun t => (t.sq (0, 7)).map (fun q => q.content)) =
      some (some ⟨.Queen, .White, true, false⟩)) := by
  constructor
  · rfl
  · rfl

/-! ## Claim C4 -/

/-- **C4** (code bug).  The pawn block removes the two-square advance only
when the double square itself is occupied (state.rs lines 283-285); a
blocker on the square directly in front only removes the one-square move
(lines 290-292).  In `stC4` the unmoved White pawn e2 is blocked by a knight
on e3 yet its legality-filtered move set is exactly the two-square jump to
e4, contradicting the claim that neither forward destination appears. -/
theorem c4_blocked_pawn_jumps :
    (get_moves stC4 (4, 1) true).map (fun ms => ms.map (fun m => m.dst)) =
      some [(4, 3)] := by
  rfl

/-! ## Claim C1: counterexample -/

/-- **C1** is false as stated: in `stC1` the legality-filtered move set of
the pinned White pawn e5 is exactly the en-passant capture to d6 — yet
simulating that move as a plain relocation on a clone leaves White in check
(the pawn is pinned by the a1 bishop).  The en-passant entries are pushed to
`moves_with_fn` before the filter runs and are never check-tested. -/
theorem c1_counterexample_ep_unfiltered :
    (get_moves stC1 (4, 4) true =
      some [⟨(3, 5), .enPassantFn (4, 4) (3, 5)⟩]) ∧
    ((make_move stC1 (4, 4) (ChessMove.dummy (3, 5))).bind
      (fun t => is_in_check t .White) = some true) := by
  constructor
  · rfl
  · rfl

/-! ## Claim C5: counterexample -/

/-- **C5** is false as stated: the castling closure pushes exactly one
`PerformedMove` (the king's source and destination); `perform_castle` then
relocates rook and king through `ChessMove::dummy` moves whose closures push
nothing.  Applying the generated short castle in `stC5` grows the history
from 0 to 1, not 2. -/
theorem c5_counterexample_castle_one_record :
    ((get_moves stC5 (4, 0) true).map
      (fun ms => decide ((⟨(6, 0), .castleFn false .White (4, 0) (6, 0)⟩ : ChessMove) ∈ ms)) =
      some true) ∧
    stC5.history.length = 0 ∧
    ((make_move stC5 (4, 0) ⟨(6, 0), .castleFn false .White (4, 0) (6, 0)⟩).map
      (fun t => t.history.length) = some 1) := by
  refine ⟨?_, rfl, ?_⟩
  · rfl
  · rfl

/-! ## Claim C6: counterexample -/

/-- **C6** is false as stated: the castling block checks only the corner
piece's kind and `has_moved` flag, never its colour.  In `stC6` the corner
h1 holds an unmoved **Black** rook, yet the White king's legality-filtered
moves still offer the short castle. -/
theorem c6_counterexample_enemy_rook :
    ((stC6.sq (7, 0)).map (fun q => q.content) =
      some (some ⟨.Rook, .Black, false, false⟩)) ∧
    ((get_moves stC6 (4, 0) true).map
      (fun ms => decide ((⟨(6, 0), .castleFn false .White (4, 0) (6, 0)⟩ : ChessMove) ∈ ms)) =
      some true) := by
  constructor
  · rfl
  · rfl

/-! ## Claim C7: counterexample -/

/-- **C7** is false as stated: in `stC7` White is reported in check although
no Black piece's unfiltered destinations contain the White king square d6.
The hit comes from White's **own** pawn e5, whose attached en-passant
destination (3,5) coincides with the White king's square — the all-squares
scan is not equivalent to an enemy-squares scan because attached en-passant
destinations are not restricted to enemy-free squares. -/
theorem c7_counterexample_own_ep_hit :
    is_in_check stC7 .White = some true ∧
    get_king_coord stC7 .White = some (3, 5) ∧
    occupiedCoords stC7 = [(3, 4), (4, 4), (3, 5), (7, 7)] ∧
    ((stC7.sq (4, 4)).map (fun q => q.content.map (fun p => p.colour)) =
      some (some .White)) ∧
    ((stC7.sq (3, 5)).map (fun q => q.content.map (fun p => p.colour)) =
      some (some .White)) ∧
    ((getMovesNoCheck stC7 (3, 4)).map (fun ms => ms.map (fun m => m.dst)) =
      some [(3, 3)]) ∧
    ((getMovesNoCheck stC7 (7, 7)).map (fun ms => ms.map (fun m => m.dst)) =
      some [(6, 6), (6, 7), (7, 6)]) := by
  refine ⟨?_, rfl, rfl, rfl, rfl, ?_, ?_⟩
  · rfl
  · rfl
  · rfl

/-! ## Membership case analysis for generated moves -/

theorem get_moves_mem_cases {s : State} {coord : Nat × Nat} {tfc : Bool}
    {ms : List ChessMove} (h : get_moves s coord tfc = some ms)
    {m : ChessMove} (hm : m ∈ ms) :
    ∃ sq0 piece bm nonchecking castles,
      s.sq coord = some sq0 ∧ sq0.content = some piece ∧
      baseMoves s coord piece = some bm ∧
      (if tfc then checkFilter s coord piece.colour bm.1 else some bm.1) = some nonchecking ∧
      castleMoves s coord piece = some castles ∧
      (m ∈ bm.2 ∨ (∃ d, d ∈ nonchecking ∧ m = classifyMove coord piece d) ∨ m ∈ castles) := by
  obtain ⟨sq0, piece, bm, nonchecking, castles, hsq, hc, hbm, hnc, hcs, hms⟩ := get_moves_inv h
  subst hms
  refine ⟨sq0, piece, bm, nonchecking, castles, hsq, hc, hbm, hnc, hcs, ?_⟩
  rcases List.mem_append.mp hm with hm' | hcastle
  · rcases List.mem_append.mp hm' with hep | hcl
    · exact Or.inl hep
    · obtain ⟨d, hd, hmd⟩ := List.mem_map.mp hcl
      exact Or.inr (Or.inl ⟨d, hd, hmd.symm⟩)
  · exact Or.inr (Or.inr hcastle)

/-- Every move in a castling list carries a castling closure. -/
theorem castleMoves_tag {s : State} {coord : Nat × Nat} {piece : Piece}
    {cs : List ChessMove} (h : castleMoves s coord piece = some cs)
    {m : ChessMove} (hm : m ∈ cs) :
    ∃ long t, m = ⟨t, .castleFn long piece.colour coord t⟩ := by
  obtain ⟨kc, ksq, kp, _, _, _, _, _, longList, shortList, hlong, hshort, hcs⟩ :=
    castleMoves_mem h hm
  subst hcs
  rcases List.mem_append.mp hm with hl | hs
  · obtain ⟨_, _, _, _, _, _, _, _, _, _, _, _, _, _, _, hmeq⟩ := longCastleList_mem hlong hl
    exact ⟨true, _, hmeq⟩
  · obtain ⟨_, _, _, _, _, _, _, _, _, _, _, _, hmeq⟩ := shortCastleList_mem hshort hs
    exact ⟨false, _, hmeq⟩

/-- No generated move carries the trivial dummy closure. -/
theorem get_moves_not_dummy {s : State} {coord : Nat × Nat} {tfc : Bool}
    {ms : List ChessMove} (h : get_moves s coord tfc = some ms)
    {m : ChessMove} (hm : m ∈ ms) : m.function ≠ .dummy := by
  obtain ⟨sq0, piece, bm, nonchecking, castles, _, _, hbm, _, hcs, hcase⟩ :=
    get_moves_mem_cases h hm
  rcases hcase with hep | ⟨d, _, hmd⟩ | hcastle
  · obtain ⟨_, d, hmeq, _⟩ := baseMoves_ep hbm hep
    subst hmeq
    simp
  · subst hmd
    rcases classifyMove_fn coord piece d with hf | hf | hf <;> simp [hf]
  · obtain ⟨long, t, hmeq⟩ := castleMoves_tag hcs hcastle
    subst hmeq
    simp

/-! ## Claim C5: amended theorem -/

/-- **C5** (amended).  History is append-only and every generated move
applied through `make_move` appends exactly one `PerformedMove` record —
including castling, whose single application logs one record (the king
relocation); the rook relocation is not separately recorded. -/
theorem c5_amended_one_record_per_move :
    ∀ (s : State) (coord : Nat × Nat) (tfc : Bool) (ms : List ChessMove)
      (m : ChessMove) (s' : State),
    get_moves s coord tfc = some ms → m ∈ ms → make_move s coord m = some s' →
    ∃ pm, s'.history = s.history ++ [pm] := by
  intro s coord tfc ms m s' h hm happ
  exact make_move_history happ (get_moves_not_dummy h hm)

/-- The state after applying pawn e2-e3 in `stPawnE2` (used by witnesses). -/
def stPawnE2e3 : State :=
  (make_move stPawnE2 (4, 1) ⟨(4, 2), .defaultFn (4, 1) (4, 2)⟩).getD stPawnE2

/-- Witness for `c5_amended_one_record_per_move` at a concrete input. -/
theorem c5_amended_witness :
    ∃ pm, stPawnE2e3.history = stPawnE2.history ++ [pm] :=
  c5_amended_one_record_per_move stPawnE2 (4, 1) true
    [⟨(4, 2), .defaultFn (4, 1) (4, 2)⟩, ⟨(4, 3), .doublePushFn (4, 1) (4, 3) .White⟩]
    ⟨(4, 2), .defaultFn (4, 1) (4, 2)⟩ stPawnE2e3
    (by rfl) (by simp) (by rfl)

/-! ## Claim C1: amended theorem -/

/-- **C1** (amended).  Every returned move that is **not** an attached
en-passant or castling move has passed the legality filter: simulating it as
a plain relocation on a clone of the state leaves the mover's colour not in
check.  (The en-passant and castling attachments bypass the filter, as the
counterexample shows.) -/
theorem c1_amended_filtered_moves_safe :
    ∀ (s : State) (coord : Nat × Nat) (ms : List ChessMove) (m : ChessMove),
    get_moves s coord true = some ms → m ∈ ms →
    (∀ a b, m.function ≠ .enPassantFn a b) →
    (∀ l c a b, m.function ≠ .castleFn l c a b) →
    ∃ piece tb, (s.sq coord).bind (fun q => q.content) = some piece ∧
      make_move s coord (ChessMove.dummy m.dst) = some tb ∧
      is_in_check tb piece.colour = some false := by
  intro s coord ms m h hm hnotep hnotcastle
  obtain ⟨sq0, piece, bm, nonchecking, castles, hsq, hc, hbm, hnc, hcs, hcase⟩ :=
    get_moves_mem_cases h hm
  rcases hcase with hep | ⟨d, hd, hmd⟩ | hcastle
  · obtain ⟨_, d, hmeq, _⟩ := baseMoves_ep hbm hep
    subst hmeq
    exact absurd rfl (hnotep coord d)
  · have hfilter : checkFilter s coord piece.colour bm.1 = some nonchecking := by
      simpa using hnc
    obtain ⟨_, tb, htb, hchk⟩ := checkFilter_mem hfilter hd
    subst hmd
    rw [classifyMove_dst]
    exact ⟨piece, tb, by rw [hsq]; exact hc, htb, hchk⟩
  · obtain ⟨long, t, hmeq⟩ := castleMoves_tag hcs hcastle
    subst hmeq
    exact absurd rfl (hnotcastle long piece.colour coord t)

/-- Witness for `c1_amended_filtered_moves_safe` at a concrete input. -/
theorem c1_amended_witness :
    ∃ piece tb, (stPawnE2.sq (4, 1)).bind (fun q => q.content) = some piece ∧
      make_move stPawnE2 (4, 1) (ChessMove.dummy (4, 2)) = some tb ∧
      is_in_check tb piece.colour = some false :=
  c1_amended_filtered_moves_safe stPawnE2 (4, 1)
    [⟨(4, 2), .defaultFn (4, 1) (4, 2)⟩, ⟨(4, 3), .doublePushFn (4, 1) (4, 3) .White⟩]
    ⟨(4, 2), .defaultFn (4, 1) (4, 2)⟩
    (by rfl) (by simp)
    (by intro a b hab; exact EffectTag.noConfusion hab)
    (by intro l c a b hab; exact EffectTag.noConfusion hab)

/-! ## Claim C9 -/

theorem targetOwnColour_true_iff {tsq : Square} {sp : Piece} :
    targetOwnColour tsq sp = true ↔ ∃ tp, tsq.content = some tp ∧ tp.colour = sp.colour := by
  unfold targetOwnColour
  cases hctn : tsq.content with
  | none => simp
  | some p => simp

/-- **C9**.  Rejected user actions have no effect: with an occupied selected
square, if the target equals the source, or holds a piece of the mover's
colour, or is not the destination of any legality-filtered move, then
`attempt_move` returns `false` and the state is unchanged except that the
selection is cleared; and whenever `attempt_move` returns `true` it has
actually applied a generated move whose destination is the target. -/
theorem c9_attempt_move_rejections :
    ∀ (s : State) (target src : Nat × Nat) (ssq tsq : Square) (sp : Piece),
    s.selected_square = some src → s.sq src = some ssq → ssq.content = some sp →
    s.sq target = some tsq →
    ((src = target ∨ (∃ tp, tsq.content = some tp ∧ tp.colour = sp.colour) ∨
      (∃ ms, get_moves s src true = some ms ∧ ∀ m ∈ ms, m.dst ≠ target)) →
      attempt_move s target = some ({ s with selected_square := none }, false)) ∧
    (∀ s' b, attempt_move s target = some (s', b) → b = true →
      ∃ ms m s1, get_moves s src true = some ms ∧ m ∈ ms ∧ m.dst = target ∧
        make_move s src m = some s1 ∧ s' = { s1 with selected_square := none }) := by
  intro s target src ssq tsq sp h1 h2 h3 h4
  constructor
  · intro hrej
    unfold attempt_move
    rw [h1]
    simp only [Option.bind_eq_bind', Option.some_bind, h2, h3, h4]
    by_cases hst : src = target
    · rw [if_neg (by simpa using hst)]; rfl
    · rw [if_pos hst]
      by_cases hown : targetOwnColour tsq sp = false
      · rw [if_pos hown]
        rcases hrej with hc | hc | hc
        · exact absurd hc hst
        · exact absurd (targetOwnColour_true_iff.mpr hc) (by simpa using hown)
        · obtain ⟨ms, hms, hall⟩ := hc
          rw [hms]
          simp only [Option.bind_eq_bind', Option.some_bind]
          have hany : (ms.any (fun m => decide (m.dst = target))) = false := by
            rw [List.any_eq_false]
            intro m hm
            simpa using hall m hm
          rw [hany]
          simp [Option.pure_def]
      · rw [if_neg hown]; rfl
  · intro s' b happ hb
    subst hb
    unfold attempt_move at happ
    rw [h1] at happ
    simp only [Option.bind_eq_bind', Option.some_bind, h2, h3, h4] at happ
    by_cases hst : src = target
    · rw [if_neg (by simpa using hst)] at happ
      simp at happ
    · rw [if_pos hst] at happ
      by_cases hown : targetOwnColour tsq sp = false
      · rw [if_pos hown] at happ
        cases hms : get_moves s src true with
        | none => rw [hms] at happ; simp at happ
        | some ms =>
            rw [hms] at happ
            simp only [Option.bind_eq_bind', Option.some_bind] at happ
            by_cases hany : (ms.any (fun m => decide (m.dst = target))) = true
            · rw [if_pos hany] at happ
              simp only [Option.bind_eq_bind', Option.bind_eq_some, Option.pure_def,
                Option.some.injEq, Prod.mk.injEq] at happ
              obtain ⟨mv, hmv, s1, hs1, hs', _⟩ := happ
              have hmem : mv ∈ ms.filter (fun m => decide (m.dst = target)) := by
                cases hfl : ms.filter (fun m => decide (m.dst = target)) with
                | nil => rw [hfl] at hmv; simp at hmv
                | cons a t =>
                    rw [hfl] at hmv
                    simp only [List.head?_cons, Option.some.injEq] at hmv
                    rw [← hmv]
                    exact List.mem_cons_self a t
              have := List.mem_filter.mp hmem
              exact ⟨ms, mv, s1, rfl, this.1, by simpa using this.2, hs1, hs'.symm⟩
            · rw [if_neg hany] at happ
              simp at happ
      · rw [if_neg hown] at happ
        simp at happ

/-- A fixture with the pawn square selected (source equals target, so the
action is rejected). -/
def stC9 : State := { stPawnE2 with selected_square := some (4, 1) }

/-- Witness for `c9_attempt_move_rejections` at a concrete input. -/
theorem c9_witness :
    attempt_move stC9 (4, 1) = some ({ stC9 with selected_square := none }, false) :=
  (c9_attempt_move_rejections stC9 (4, 1) (4, 1)
    ⟨(4, 1), some ⟨.Pawn, .White, false, false⟩⟩
    ⟨(4, 1), some ⟨.Pawn, .White, false, false⟩⟩
    ⟨.Pawn, .White, false, false⟩
    (by rfl) (by rfl) (by rfl) (by rfl)).1 (Or.inl rfl)

/-! ## Claim C8 -/

theorem u8ToI8_of_lt {n : Nat} (h : n < 8) : u8ToI8 n = (n : Int) := by
  unfold u8ToI8
  rw [Nat.mod_eq_of_lt (by omega)]
  rw [if_pos (by exact_mod_cast (by omega : n < 128))]

theorem idx_inj {a b : Nat × Nat} (ha : a.1 < 8) (hb : b.1 < 8)
    (h : idx a = idx b) : a = b := by
  unfold idx at h
  have h1 : a.1 = b.1 ∧ a.2 = b.2 := by omega
  exact Prod.ext h1.1 h1.2

theorem setContent_isSome {s : State} {c : Nat × Nat} (p : Option Piece)
    (h : idx c < s.squares.length) : ∃ s', s.setContent c p = some s' := by
  unfold State.setContent
  cases hg : s.squares.get? (idx c) with
  | none =>
      rw [List.get?_eq_getElem?] at hg
      rw [List.getElem?_eq_none_iff] at hg
      omega
  | some sq0 => exact ⟨_, rfl⟩

/-- **C8**.  A generated double-pawn-push move composes its effect with the
generic relocation: the effect pushes the history record, rewrites the
source square with an en-passant-eligible, has-moved pawn of the mover's
colour, and reports "not handled" (`false`); the generic step then moves
that pawn to the destination.  After `make_move` the source is empty and the
destination holds a pawn of the mover's colour with `has_moved = true` and
`en_passanteable = true`. -/
theorem c8_double_push_effect :
    ∀ (s : State) (coord : Nat × Nat) (tfc : Bool) (ms : List ChessMove)
      (m : ChessMove) (a b : Nat × Nat) (col : ChessColour),
    coord.1 < 8 → coord.2 < 8 →
    get_moves s coord tfc = some ms → m ∈ ms →
    m.function = .doublePushFn a b col →
    a = coord ∧ b = m.dst ∧
    (∃ sq0 piece, s.sq coord = some sq0 ∧ sq0.content = some piece ∧
      col = piece.colour ∧ piece.kind = .Pawn ∧ piece.has_moved = false) ∧
    ∃ s1, runEffect m.function s = some (s1, false) ∧
      (∃ sq1, s1.sq coord = some sq1 ∧ sq1.content = some ⟨.Pawn, col, true, true⟩) ∧
      ∃ s', make_move s coord m = some s' ∧
        (∃ sqs, s'.sq coord = some sqs ∧ sqs.content = none) ∧
        (∃ sqd, s'.sq m.dst = some sqd ∧ sqd.content = some ⟨.Pawn, col, true, true⟩) := by
  intro s coord tfc ms m a b col hc1 hc2 h hm htag
  obtain ⟨sq0, piece, bm, nonchecking, castles, hsq, hctn, hbm, hnc, hcs, hcase⟩ :=
    get_moves_mem_cases h hm
  rcases hcase with hep | ⟨d, hd, hmd⟩ | hcastle
  · obtain ⟨_, d, hmeq, _⟩ := baseMoves_ep hbm hep
    rw [hmeq] at htag
    exact absurd htag (by simp)
  swap
  · obtain ⟨long, t, hmeq⟩ := castleMoves_tag hcs hcastle
    rw [hmeq] at htag
    exact absurd htag (by simp)
  · have htag' := htag
    rw [hmd] at htag'
    rw [classifyMove_doublePush_iff] at htag'
    obtain ⟨ha, hb, hcol, _, hkind, hdiff, hmoved⟩ := htag'
    subst ha
    subst hb
    subst hcol
    have hdst : m.dst = b := by rw [hmd, classifyMove_dst]
    have hdbase : b ∈ bm.1 := by
      cases tfc with
      | true =>
          have hfilter : checkFilter s a piece.colour bm.1 = some nonchecking := by
            simpa using hnc
          exact (checkFilter_mem hfilter hd).1
      | false =>
          have : bm.1 = nonchecking := by simpa using hnc
          rw [this]
          exact hd
    obtain ⟨hd1, hd2, sqd0, hsqd0, _⟩ := baseMoves_mem hc1 hbm hdbase
    have hlen : idx a < s.squares.length := (List.get?_eq_some.mp hsq).1
    have hlend : idx b < s.squares.length := (List.get?_eq_some.mp hsqd0).1
    have hne : b.2 ≠ a.2 := by
      intro hdeq
      rw [hdeq] at hdiff
      simp at hdiff
    have hidxne : idx b ≠ idx a := by
      intro hidx
      exact hne (congrArg Prod.snd (idx_inj hd1 hc1 hidx))
    refine ⟨rfl, hdst.symm, ⟨sq0, piece, hsq, hctn, rfl, hkind, hmoved⟩, ?_⟩
    -- the double-push closure: push history, rewrite the source square
    obtain ⟨s1, hs1⟩ := setContent_isSome (s := pushHist s a b)
      (c := a) (some ⟨.Pawn, piece.colour, true, true⟩) (by simpa [pushHist] using hlen)
    have hrun : runEffect m.function s = some (s1, false) := by
      rw [htag]
      simp only [runEffect, hs1, Option.map_some']
    obtain ⟨sq1pre, hsq1pre, hsq1⟩ := setContent_sq_self hs1
    refine ⟨s1, hrun, ⟨_, hsq1, rfl⟩, ?_⟩
    -- the generic relocation: read back the flagged pawn, write it to dst
    have hlen1 : s1.squares.length = s.squares.length := by
      have := (setContent_fields hs1).2.2.2.2
      simpa [pushHist] using this
    obtain ⟨s2, hs2⟩ := setContent_isSome (s := s1) (c := b)
      (p := some ⟨.Pawn, piece.colour, true, true⟩) (by rw [hlen1]; exact hlend)
    have hlen2 : s2.squares.length = s.squares.length :=
      ((setContent_fields hs2).2.2.2.2).trans hlen1
    obtain ⟨s3, hs3⟩ := setContent_isSome (s := s2) (c := a)
      (p := none) (by rw [hlen2]; exact hlen)
    have hrd : runDummyMove s1 a m.dst = some s3 := by
      unfold runDummyMove
      rw [hsq1]
      simp only [Option.some_bind, Option.bind_eq_bind']
      rw [hdst]
      show ((s1.setContent b (some ⟨.Pawn, piece.colour, true, true⟩)).bind
        fun s2x => s2x.setContent a none) = some s3
      rw [hs2]
      simpa using hs3
    have happ : make_move s a m = some s3 := by
      unfold make_move
      simp only [Option.bind_eq_bind', hrun, Option.some_bind]
      simpa using hrd
    obtain ⟨sqs0, _, hsqs⟩ := setContent_sq_self hs3
    obtain ⟨sqd2, hsqd2, hsqd⟩ := setContent_sq_self hs2
    have hfinal_d : s3.sq b = s2.sq b := setContent_sq_other hs3 hidxne
    refine ⟨s3, happ, ⟨_, hsqs, rfl⟩, ?_⟩
    rw [hdst, hfinal_d]
    exact ⟨_, hsqd, rfl⟩

/-- Witness for `c8_double_push_effect` at a concrete input (the e2-e4
double push in `stPawnE2`). -/
theorem c8_witness :
    (4, 1).1 = (4 : Nat) ∧
    ∃ s1, runEffect (EffectTag.doublePushFn (4, 1) (4, 3) .White) stPawnE2 = some (s1, false) ∧
      (∃ sq1, s1.sq (4, 1) = some sq1 ∧ sq1.content = some ⟨.Pawn, .White, true, true⟩) ∧
      ∃ s', make_move stPawnE2 (4, 1) ⟨(4, 3), .doublePushFn (4, 1) (4, 3) .White⟩ = some s' ∧
        (∃ sqs, s'.sq (4, 1) = some sqs ∧ sqs.content = none) ∧
        (∃ sqd, s'.sq (4, 3) = some sqd ∧ sqd.content = some ⟨.Pawn, .White, true, true⟩) := by
  have := c8_double_push_effect stPawnE2 (4, 1) true
    [⟨(4, 2), .defaultFn (4, 1) (4, 2)⟩, ⟨(4, 3), .doublePushFn (4, 1) (4, 3) .White⟩]
    ⟨(4, 3), .doublePushFn (4, 1) (4, 3) .White⟩ (4, 1) (4, 3) .White
    (by omega) (by omega) (by rfl) (by simp) (by rfl)
  exact ⟨rfl, this.2.2.2⟩

/-! ## Claim C2 -/

/-- No piece anywhere on the board carries the en-passant flag. -/
def noFlag (s : State) : Prop :=
  ∀ i sq0 p, s.squares.get? i = some sq0 → sq0.content = some p →
    p.en_passanteable = false

theorem noFlag_read {s : State} (h : noFlag s) {c : Nat × Nat} {sq0 : Square}
    {p : Piece} (hsq : s.sq c = some sq0) (hctn : sq0.content = some p) :
    p.en_passanteable = false :=
  h (idx c) sq0 p hsq hctn

theorem noFlag_squares_congr {s s' : State} (hsq : s'.squares = s.squares)
    (h : noFlag s) : noFlag s' := by
  intro i sq0 p hg hctn
  rw [hsq] at hg
  exact h i sq0 p hg hctn

theorem noFlag_setContent {s s' : State} {c : Nat × Nat} {q : Option Piece}
    (hset : s.setContent c q = some s')
    (hq : ∀ p, q = some p → p.en_passanteable = false)
    (h : noFlag s) : noFlag s' := by
  intro i sqi pi hg hctn
  unfold State.setContent at hset
  split at hset
  · exact absurd hset (by simp)
  · next sq0 hget =>
      cases hset.symm
      simp only [List.get?_eq_getElem?] at hg
      rw [List.getElem?_set] at hg
      by_cases hic : idx c = i
      · rw [if_pos hic] at hg
        have hlt : idx c < s.squares.length := (List.get?_eq_some.mp hget).1
        rw [if_pos (hic ▸ hlt)] at hg
        cases hg.symm
        exact hq pi (by simpa using hctn)
      · rw [if_neg hic] at hg
        exact h i sqi pi (by simpa [List.get?_eq_getElem?] using hg) hctn

theorem noFlag_runDummyMove {s s' : State} {src dst : Nat × Nat}
    (h : runDummyMove s src dst = some s') (hn : noFlag s) : noFlag s' := by
  obtain ⟨sq0, p, s1, hsq, hctn, h1, h2⟩ := runDummyMove_inv h
  have hp : p.en_passanteable = false := noFlag_read hn hsq hctn
  have hn1 : noFlag s1 := noFlag_setContent h1
    (fun p' hp' => by cases hp'.symm; simpa using hp) hn
  exact noFlag_setContent h2 (fun p' hp' => by cases hp') hn1

theorem noFlag_en_passant {s s' : State} {src dst : Nat × Nat}
    (h : en_passant s src dst = some s') (hn : noFlag s) : noFlag s' := by
  unfold en_passant at h
  simp only [Option.bind_eq_bind', Option.bind_eq_some] at h
  obtain ⟨sq0, hsq, s1, h1, s2, h2, h3⟩ := h
  have hn1 : noFlag s1 := noFlag_setContent h1
    (fun p' hp' => noFlag_read hn hsq hp') hn
  have hn2 : noFlag s2 := noFlag_setContent h2 (fun p' hp' => by cases hp') hn1
  exact noFlag_setContent h3 (fun p' hp' => by cases hp') hn2

theorem noFlag_promote_pawn {s s' : State} {src dst : Nat × Nat}
    (h : promote_pawn s src dst = some s') (hn : noFlag s) : noFlag s' := by
  unfold promote_pawn at h
  split at h
  · exact absurd h (by simp)
  · exact absurd h (by simp)
  · simp only [Option.bind_eq_bind', Option.bind_eq_some] at h
    obtain ⟨sq0, hsq, p, hctn, s1, h1, h2⟩ := h
    have hn1 : noFlag s1 := noFlag_setContent h1
      (fun p' hp' => by cases hp'.symm; rfl) hn
    exact noFlag_setContent h2 (fun p' hp' => by cases hp') hn1

theorem noFlag_perform_castle {s s' : State} {long : Bool} {col : ChessColour}
    (h : perform_castle s long col = some s') (hn : noFlag s) : noFlag s' := by
  unfold perform_castle at h
  simp only [Option.bind_eq_bind', Option.bind_eq_some] at h
  obtain ⟨kc, _, s1, h1, h2⟩ := h
  exact noFlag_runDummyMove h2 (noFlag_runDummyMove h1 hn)

theorem noFlag_pushHist {s : State} {a b : Nat × Nat} (hn : noFlag s) :
    noFlag (pushHist s a b) :=
  noFlag_squares_congr (pushHist_squares s a b) hn

/-- **C2**.  The en-passant flag survives exactly one ply.  First conjunct
(code): applying any move whose closure is not the double-push closure never
introduces an en-passant flag — the double pawn push is the only operation
that sets it.  Second conjunct (spec-modelled turn-completion cleanup,
`apply_ply` = `make_move` + turn flip + `clear_en_passant`): after a
completed ply, every piece belonging to the side that has just regained the
move has `en_passanteable = false`. -/
theorem c2_en_passant_flag_lifecycle :
    (∀ (s : State) (src : Nat × Nat) (m : ChessMove) (s' : State),
      make_move s src m = some s' →
      (∀ a b c, m.function ≠ .doublePushFn a b c) →
      noFlag s → noFlag s') ∧
    (∀ (s : State) (src : Nat × Nat) (m : ChessMove) (s' : State),
      apply_ply s src m = some s' →
      ∀ i sq0 p, s'.squares.get? i = some sq0 → sq0.content = some p →
        p.colour = s'.turn → p.en_passanteable = false) := by
  constructor
  · intro s src m s' happ hnot hn
    unfold make_move at happ
    simp only [Option.bind_eq_bind', Option.bind_eq_some] at happ
    obtain ⟨⟨s1, handled⟩, hrun, hrest⟩ := happ
    have hn1 : noFlag s1 := by
      cases htag : m.function with
      | dummy =>
          rw [htag] at hrun
          simp only [runEffect, Option.some.injEq, Prod.mk.injEq] at hrun
          exact hrun.1 ▸ hn
      | enPassantFn a b =>
          rw [htag] at hrun
          simp only [runEffect, Option.map_eq_some'] at hrun
          obtain ⟨t, ht, hte⟩ := hrun
          cases hte
          exact noFlag_en_passant ht (noFlag_pushHist hn)
      | promoteFn a b =>
          rw [htag] at hrun
          simp only [runEffect, Option.map_eq_some'] at hrun
          obtain ⟨t, ht, hte⟩ := hrun
          cases hte
          exact noFlag_promote_pawn ht (noFlag_pushHist hn)
      | doublePushFn a b c => exact absurd htag (by simpa using hnot a b c)
      | defaultFn a b =>
          rw [htag] at hrun
          simp only [runEffect, Option.some.injEq, Prod.mk.injEq] at hrun
          exact hrun.1 ▸ noFlag_pushHist hn
      | castleFn l c a b =>
          rw [htag] at hrun
          simp only [runEffect, Option.map_eq_some'] at hrun
          obtain ⟨t, ht, hte⟩ := hrun
          cases hte
          exact noFlag_perform_castle ht (noFlag_pushHist hn)
    cases handled with
    | true =>
        simp only [if_pos, Option.pure_def, Option.some.injEq] at hrest
        exact hrest ▸ hn1
    | false =>
        simp only [Bool.false_eq_true, if_neg, not_false_iff] at hrest
        exact noFlag_runDummyMove hrest hn1
  · intro s src m s' happ i sq0 p hg hctn hcol
    unfold apply_ply at happ
    simp only [Option.map_eq_some'] at happ
    obtain ⟨s1, _, hs'⟩ := happ
    subst hs'
    simp only [clear_en_passant, List.get?_eq_getElem?, List.getElem?_map] at hg
    cases hg2 : s1.squares[i]? with
    | none => rw [hg2] at hg; exact absurd hg (by simp)
    | some sq1 =>
        rw [hg2] at hg
        simp only [Option.map_some', Option.some.injEq] at hg
        cases hctn1 : sq1.content with
        | none =>
            rw [hctn1] at hg
            cases hg.symm
            rw [hctn1] at hctn
            exact absurd hctn (by simp)
        | some p1 =>
            simp only [hctn1] at hg
            by_cases hpc : p1.colour = s1.turn.flip
            · rw [if_pos hpc] at hg
              cases hg.symm
              simp only at hctn
              cases hctn.symm
              rfl
            · rw [if_neg hpc] at hg
              cases hg.symm
              rw [hctn1] at hctn
              cases hctn.symm
              exact absurd hcol hpc

/-- The state after the e2-e4 double push as a full ply (move applied, turn
flipped, flags of the side to move cleared). -/
def stC2after : State :=
  (apply_ply stPawnE2 (4, 1) ⟨(4, 3), .doublePushFn (4, 1) (4, 3) .White⟩).getD stPawnE2

/-- Witness for `c2_en_passant_flag_lifecycle` at concrete inputs: a knight
move preserves flag-freeness of the initial-style board, and after the
e2-e4 ply the Black king (the side to move) carries no flag. -/
theorem c2_witness :
    (⟨.King, .Black, true, false⟩ : Piece).en_passanteable = false ∧
    stC2after.turn = .Black :=
  ⟨c2_en_passant_flag_lifecycle.2 stPawnE2 (4, 1)
      ⟨(4, 3), .doublePushFn (4, 1) (4, 3) .White⟩ stC2after (by rfl)
      63 ⟨(7, 7), some ⟨.King, .Black, true, false⟩⟩ ⟨.King, .Black, true, false⟩
      (by rfl) (by rfl) (by rfl),
    by rfl⟩

/-! ## Claim C10 -/

theorem wf_length {s : State} (h : wf s = true) : s.squares.length = 64 := by
  unfold wf at h
  rw [Bool.and_eq_true] at h
  simpa using h.1

theorem wf_coords {s : State} (h : wf s = true) {i : Nat} {sq0 : Square}
    (hg : s.squares.get? i = some sq0) : sq0.coords = (i % 8, i / 8) := by
  have hlen := wf_length h
  unfold wf at h
  rw [Bool.and_eq_true] at h
  have hi : i < 64 := by
    have := (List.get?_eq_some.mp hg).1
    omega
  have := List.all_eq_true.mp h.2 i (List.mem_range.mpr hi)
  rw [hg] at this
  simpa using this

/-- On a well-formed board the square found by `get_king_coord` really sits
at the returned coordinates and holds a King of the requested colour. -/
theorem get_king_coord_wf {s : State} {col : ChessColour} {kc : Nat × Nat}
    (hwf : wf s = true) (h : get_king_coord s col = some kc) :
    ∃ ksq kp, s.sq kc = some ksq ∧ ksq.content = some kp ∧
      kp.kind = .King ∧ kp.colour = col ∧ kc.1 < 8 ∧ kc.2 < 8 := by
  unfold get_king_coord at h
  simp only [Option.map_eq_some'] at h
  obtain ⟨ksq, hfind, hkc⟩ := h
  have hpred := List.find?_some hfind
  have hmem := List.mem_of_find?_eq_some hfind
  obtain ⟨i, hget⟩ := List.mem_iff_get?.mp hmem
  have hco := wf_coords hwf hget
  have hi : i < 64 := by
    have := (List.get?_eq_some.mp hget).1
    have := wf_length hwf
    omega
  obtain ⟨kp, hctn, hkind, hcol⟩ : ∃ kp, ksq.content = some kp ∧
      kp.kind = .King ∧ kp.colour = col := by
    cases hctn : ksq.content with
    | none => rw [hctn] at hpred; exact absurd hpred (by simp)
    | some p =>
        rw [hctn] at hpred
        have := of_decide_eq_true hpred
        exact ⟨p, rfl, this.1, this.2⟩
  have hidx : idx kc = i := by
    subst hkc
    rw [hco]
    unfold idx
    simp only
    omega
  refine ⟨ksq, kp, ?_, hctn, hkind, hcol, ?_, ?_⟩
  · unfold State.sq
    rw [hidx]
    exact hget
  · subst hkc; rw [hco]; simp only; omega
  · subst hkc; rw [hco]; simp only; omega

theorem pawnOffsets_prepromotion {piece : Piece} {coord : Nat × Nat}
    (h : (piece.colour = .White ∧ coord.2 = 6) ∨ (piece.colour = .Black ∧ coord.2 = 1)) :
    pawnOffsets piece coord = [] := by
  unfold pawnOffsets
  rcases h with ⟨hc, hr⟩ | ⟨hc, hr⟩
  · rw [if_pos hc, if_pos hr]
  · rw [hc]
    rw [if_neg (by simp), if_pos hr]

theorem steppingOffsets_pawn {piece : Piece} (coord : Nat × Nat)
    (hkind : piece.kind = .Pawn) :
    steppingOffsets piece coord = pawnOffsets piece coord := by
  unfold steppingOffsets
  rw [hkind]

/-- When a pawn has no forward offsets, its whole candidate computation is
the pawn block run on the empty set. -/
theorem baseMoves_pawn_empty {s : State} {coord : Nat × Nat} {piece : Piece}
    {bm : List (Nat × Nat) × List ChessMove} (hkind : piece.kind = .Pawn)
    (hoff : pawnOffsets piece coord = [])
    (h : baseMoves s coord piece = some bm) :
    pawnExtras s coord piece [] = some bm := by
  unfold baseMoves at h
  rw [if_neg (by rw [hkind]; simp [PieceKind.is_sliding])] at h
  rw [steppingOffsets_pawn coord hkind, hoff] at h
  simp only [stepDests, Option.bind_eq_bind', Option.some_bind] at h
  rw [if_pos hkind] at h
  exact h

/-- **C10** (implicit).  A pawn standing on the rank directly before its far
rank (rank 6 for White, rank 1 for Black) generates no forward (same-file)
destinations at all: every move `get_moves` returns for it targets an
adjacent file (a diagonal capture or an en-passant capture), so a promotion
move only ever arises as a capture. -/
theorem c10_prepromotion_pawn_no_forward :
    ∀ (s : State) (coord : Nat × Nat) (tfc : Bool) (ms : List ChessMove)
      (sq0 : Square) (piece : Piece),
    wf s = true →
    s.sq coord = some sq0 → sq0.content = some piece → piece.kind = .Pawn →
    ((piece.colour = .White ∧ coord.2 = 6) ∨ (piece.colour = .Black ∧ coord.2 = 1)) →
    get_moves s coord tfc = some ms →
    ∀ m ∈ ms, m.dst.1 + 1 = coord.1 ∨ m.dst.1 = coord.1 + 1 := by
  intro s coord tfc ms sq0 piece hwf hsq hctn hkind hrank h m hm
  obtain ⟨sq0', piece', bm, nonchecking, castles, hsq', hctn', hbm, hnc, hcs, hcase⟩ :=
    get_moves_mem_cases h hm
  rw [hsq] at hsq'
  cases hsq'.symm
  rw [hctn] at hctn'
  cases hctn'.symm
  rcases hcase with hep | ⟨d, hd, hmd⟩ | hcastle
  · obtain ⟨_, d, hmeq, hshape⟩ := baseMoves_ep hbm hep
    subst hmeq
    rcases hshape with ⟨h1, rfl⟩ | ⟨h6, rfl⟩
    · left; simpa using Nat.succ_pred_eq_of_pos h1
    · right; rfl
  · have hdbase : d ∈ bm.1 := by
      cases tfc with
      | true =>
          have hfilter : checkFilter s coord piece.colour bm.1 = some nonchecking := by
            simpa using hnc
          exact (checkFilter_mem hfilter hd).1
      | false =>
          have : bm.1 = nonchecking := by simpa using hnc
          rw [this]; exact hd
    have hpe := baseMoves_pawn_empty hkind (pawnOffsets_prepromotion hrank) hbm
    rcases pawnExtras_moves hpe hdbase with h0 | ⟨_, hshape, _⟩
    · exact absurd h0 (by simp)
    · subst hmd
      rw [classifyMove_dst]
      rcases hshape with ⟨h1, rfl⟩ | ⟨h6, rfl⟩
      · left; simpa using Nat.succ_pred_eq_of_pos h1
      · right; rfl
  · obtain ⟨kc, ksq, kp, hkcoord, hceq, hksq, hkp, _, _⟩ := castleMoves_mem hcs hcastle
    obtain ⟨ksq2, kp2, hksq2, hkp2, hkind2, _⟩ := get_king_coord_wf hwf hkcoord
    subst hceq
    rw [hsq] at hksq2
    cases hksq2.symm
    rw [hctn] at hkp2
    cases hkp2.symm
    rw [hkind] at hkind2
    exact absurd hkind2 (by simp)

/-- Pre-promotion-rank pawn fixture: White pawn d7 (`has_moved`), Black rook
c8 (a capture-promotion target), kings a1 / h8. -/
def stC10 : State := mkState
  (place (place (place (place emptyBoard
    (4, 6) ⟨.Pawn, .White, true, false⟩)
    (3, 7) ⟨.Rook, .Black, true, false⟩)
    (0, 0) ⟨.King, .White, true, false⟩)
    (7, 7) ⟨.King, .Black, true, false⟩)

/-- Witness for `c10_prepromotion_pawn_no_forward` at a concrete input: the
only move of the d7 pawn in `stC10` is the capture-promotion to c8, one file
to the left. -/
theorem c10_witness :
    ((3, 7) : Nat × Nat).1 + 1 = ((4, 6) : Nat × Nat).1 ∨
    ((3, 7) : Nat × Nat).1 = ((4, 6) : Nat × Nat).1 + 1 :=
  c10_prepromotion_pawn_no_forward stC10 (4, 6) true
    [⟨(3, 7), .promoteFn (4, 6) (3, 7)⟩]
    ⟨(4, 6), some ⟨.Pawn, .White, true, false⟩⟩
    ⟨.Pawn, .White, true, false⟩
    (by rfl) (by rfl) (by rfl) (by rfl) (Or.inl ⟨rfl, rfl⟩) (by rfl)
    ⟨(3, 7), .promoteFn (4, 6) (3, 7)⟩ (by simp)

/-! ## Claim C6: helper lemmas -/

/-- The home rank used by `perform_castle` for a colour. -/
def homeRank (col : ChessColour) : Nat := if col = .White then 0 else 7

/-- The corner file of the castling side. -/
def cornerFile (long : Bool) : Nat := if long then 0 else 7

/-- The king's castled file. -/
def kingTargetFile (long : Bool) : Nat := if long then 2 else 6

/-- The rook's castled file. -/
def rookTargetFile (long : Bool) : Nat := if long then 3 else 5

theorem sq_pushHist (s : State) (a b c : Nat × Nat) :
    (pushHist s a b).sq c = s.sq c := rfl

theorem get_king_coord_pushHist (s : State) (a b : Nat × Nat) (col : ChessColour) :
    get_king_coord (pushHist s a b) col = get_king_coord s col := rfl

/-- The conditions the code checks before offering the long castle (note:
the corner piece's colour is not among them). -/
def longCastleConds (s : State) (piece : Piece) (coord : Nat × Nat) : Prop :=
  ∃ kc, get_king_coord s piece.colour = some kc ∧ coord = kc ∧
    (∃ ksq kp, s.sq kc = some ksq ∧ ksq.content = some kp ∧ kp.has_moved = false) ∧
    (∃ asq pa, s.sq (0, kc.2) = some asq ∧ asq.content = some pa ∧
      pa.kind = .Rook ∧ pa.has_moved = false) ∧
    (∃ b1, s.sq (1, kc.2) = some b1 ∧ b1.content = none) ∧
    (∃ b2, s.sq (2, kc.2) = some b2 ∧ b2.content = none) ∧
    (∃ b3, s.sq (3, kc.2) = some b3 ∧ b3.content = none)

/-- The conditions the code checks before offering the short castle. -/
def shortCastleConds (s : State) (piece : Piece) (coord : Nat × Nat) : Prop :=
  ∃ kc, get_king_coord s piece.colour = some kc ∧ coord = kc ∧
    (∃ ksq kp, s.sq kc = some ksq ∧ ksq.content = some kp ∧ kp.has_moved = false) ∧
    (∃ hsq ph, s.sq (7, kc.2) = some hsq ∧ hsq.content = some ph ∧
      ph.kind = .Rook ∧ ph.has_moved = false) ∧
    (∃ b5, s.sq (5, kc.2) = some b5 ∧ b5.content = none) ∧
    (∃ b6, s.sq (6, kc.2) = some b6 ∧ b6.content = none)

theorem castleMoves_decomp {s : State} {coord : Nat × Nat} {piece : Piece}
    {castles : List ChessMove} {kc : Nat × Nat} {ksq : Square} {kp : Piece}
    (hk : get_king_coord s piece.colour = some kc) (hceq : coord = kc)
    (hksq : s.sq kc = some ksq) (hkp : ksq.content = some kp)
    (hmoved : kp.has_moved = false)
    (h : castleMoves s coord piece = some castles) :
    ∃ longList shortList, longCastleList s piece kc coord = some longList ∧
      shortCastleList s piece kc coord = some shortList ∧
      castles = longList ++ shortList := by
  unfold castleMoves at h
  rw [hk] at h
  simp only [Option.bind_eq_bind', Option.some_bind] at h
  rw [if_pos hceq, hksq] at h
  simp only [Option.some_bind] at h
  rw [hkp] at h
  simp only [Option.some_bind] at h
  rw [if_neg (by rw [hmoved]; exact Bool.false_ne_true)] at h
  simp only [Option.bind_eq_bind', Option.bind_eq_some, Option.pure_def,
    Option.some.injEq] at h
  obtain ⟨longList, hlong, shortList, hshort, hcs⟩ := h
  exact ⟨longList, shortList, hlong, hshort, hcs.symm⟩

theorem longCastleList_complete {s : State} {piece : Piece} {kc coord : Nat × Nat}
    {longList : List ChessMove} {asq b1 b2 b3 : Square} {pa : Piece}
    (hasq : s.sq (0, kc.2) = some asq) (hpa : asq.content = some pa)
    (hrk : pa.kind = .Rook) (hrm : pa.has_moved = false)
    (hb1 : s.sq (1, kc.2) = some b1) (he1 : b1.content = none)
    (hb2 : s.sq (2, kc.2) = some b2) (he2 : b2.content = none)
    (hb3 : s.sq (3, kc.2) = some b3) (he3 : b3.content = none)
    (h : longCastleList s piece kc coord = some longList) :
    longList = [⟨(u8sub kc.1 2, kc.2),
      .castleFn true piece.colour coord (u8sub kc.1 2, kc.2)⟩] := by
  unfold longCastleList at h
  rw [hasq] at h
  simp only [Option.bind_eq_bind', Option.some_bind, hpa] at h
  rw [if_pos ⟨hrk, hrm⟩, hb1] at h
  simp only [Option.some_bind] at h
  rw [if_pos (by rw [he1]; rfl), hb2] at h
  simp only [Option.some_bind] at h
  rw [if_pos (by rw [he2]; rfl), hb3] at h
  simp only [Option.some_bind] at h
  rw [if_pos (by rw [he3]; rfl)] at h
  simpa using h.symm

theorem shortCastleList_complete {s : State} {piece : Piece} {kc coord : Nat × Nat}
    {shortList : List ChessMove} {hsq0 b5 b6 : Square} {ph : Piece}
    (hhsq : s.sq (7, kc.2) = some hsq0) (hph : hsq0.content = some ph)
    (hrk : ph.kind = .Rook) (hrm : ph.has_moved = false)
    (hb5 : s.sq (5, kc.2) = some b5) (he5 : b5.content = none)
    (hb6 : s.sq (6, kc.2) = some b6) (he6 : b6.content = none)
    (h : shortCastleList s piece kc coord = some shortList) :
    shortList = [⟨(u8add kc.1 2, kc.2),
      .castleFn false piece.colour coord (u8add kc.1 2, kc.2)⟩] := by
  unfold shortCastleList at h
  rw [hhsq] at h
  simp only [Option.bind_eq_bind', Option.some_bind, hph] at h
  rw [if_pos ⟨hrk, hrm⟩, hb5] at h
  simp only [Option.some_bind] at h
  rw [if_pos (by rw [he5]; rfl), hb6] at h
  simp only [Option.some_bind] at h
  rw [if_pos (by rw [he6]; rfl)] at h
  simpa using h.symm

/-- Applying a castling closure with the king on its home square relocates
king and rook as `perform_castle` prescribes and reports "handled". -/
theorem castle_effect {s : State} (col : ChessColour) (long : Bool)
    {src dst : Nat × Nat} {ksq rsq : Square} {kp rp : Piece}
    (hlen : s.squares.length = 64)
    (hk : get_king_coord s col = some (4, homeRank col))
    (hksq : s.sq (4, homeRank col) = some ksq) (hkp : ksq.content = some kp)
    (hrsq : s.sq (cornerFile long, homeRank col) = some rsq)
    (hrp : rsq.content = some rp) :
    ∃ s', make_move s src ⟨dst, .castleFn long col src dst⟩ = some s' ∧
      runEffect (.castleFn long col src dst) s = some (s', true) ∧
      (∃ sqk, s'.sq (kingTargetFile long, homeRank col) = some sqk ∧
        sqk.content = some { kp with has_moved := true }) ∧
      (∃ sqr, s'.sq (rookTargetFile long, homeRank col) = some sqr ∧
        sqr.content = some { rp with has_moved := true }) ∧
      (∃ sqk0, s'.sq (4, homeRank col) = some sqk0 ∧ sqk0.content = none) ∧
      (∃ sqr0, s'.sq (cornerFile long, homeRank col) = some sqr0 ∧ sqr0.content = none) := by
  have hr8 : homeRank col < 8 := by cases col <;> simp [homeRank]
  have hcf8 : cornerFile long < 8 := by cases long <;> simp [cornerFile]
  have hkt8 : kingTargetFile long < 8 := by cases long <;> simp [kingTargetFile]
  have hrt8 : rookTargetFile long < 8 := by cases long <;> simp [rookTargetFile]
  have hne_rt_cf : rookTargetFile long ≠ cornerFile long := by
    cases long <;> simp [rookTargetFile, cornerFile]
  have hne_kt_cf : kingTargetFile long ≠ cornerFile long := by
    cases long <;> simp [kingTargetFile, cornerFile]
  have hne_kt_rt : kingTargetFile long ≠ rookTargetFile long := by
    cases long <;> simp [kingTargetFile, rookTargetFile]
  have hne_k_cf : (4 : Nat) ≠ cornerFile long := by
    cases long <;> simp [cornerFile]
  have hne_k_rt : (4 : Nat) ≠ rookTargetFile long := by
    cases long <;> simp [rookTargetFile]
  have hne_k_kt : (4 : Nat) ≠ kingTargetFile long := by
    cases long <;> simp [kingTargetFile]
  have hidx : ∀ x y : Nat, x < 8 → y < 8 → x ≠ y →
      idx (x, homeRank col) ≠ idx (y, homeRank col) := by
    intro x y hx hy hxy hcontra
    exact hxy (congrArg Prod.fst (idx_inj (a := (x, homeRank col)) (b := (y, homeRank col)) hx hy hcontra))
  -- step 1: the history push leaves the board untouched
  set s0 := pushHist s src dst with hs0
  have hlen0 : s0.squares.length = 64 := hlen
  -- step 2: rook relocation
  obtain ⟨sA, hsA⟩ := setContent_isSome (s := s0)
    (c := (rookTargetFile long, homeRank col)) (some { rp with has_moved := true })
    (by rw [hlen0]; unfold idx; simp only; omega)
  have hlenA : sA.squares.length = 64 := by
    rw [(setContent_fields hsA).2.2.2.2]; exact hlen0
  obtain ⟨sB, hsB⟩ := setContent_isSome (s := sA)
    (c := (cornerFile long, homeRank col)) (p := none)
    (by rw [hlenA]; unfold idx; simp only; omega)
  have hlenB : sB.squares.length = 64 := by
    rw [(setContent_fields hsB).2.2.2.2]; exact hlenA
  have hrd1 : runDummyMove s0 (cornerFile long, homeRank col)
      (rookTargetFile long, homeRank col) = some sB := by
    unfold runDummyMove
    rw [show s0.sq (cornerFile long, homeRank col) = some rsq from hrsq]
    simp only [Option.some_bind, Option.bind_eq_bind', hrp]
    rw [hsA]
    simpa using hsB
  -- step 3: king relocation
  have hkB : sB.sq (4, homeRank col) = some ksq := by
    rw [setContent_sq_other hsB (hidx 4 (cornerFile long) (by omega) hcf8 hne_k_cf),
      setContent_sq_other hsA (hidx 4 (rookTargetFile long) (by omega) hrt8 hne_k_rt)]
    exact hksq
  obtain ⟨sC, hsC⟩ := setContent_isSome (s := sB)
    (c := (kingTargetFile long, homeRank col)) (some { kp with has_moved := true })
    (by rw [hlenB]; unfold idx; simp only; omega)
  have hlenC : sC.squares.length = 64 := by
    rw [(setContent_fields hsC).2.2.2.2]; exact hlenB
  obtain ⟨s', hs'⟩ := setContent_isSome (s := sC) (c := (4, homeRank col)) (p := none)
    (by rw [hlenC]; unfold idx; simp only; omega)
  have hrd2 : runDummyMove sB (4, homeRank col)
      (kingTargetFile long, homeRank col) = some s' := by
    unfold runDummyMove
    rw [hkB]
    simp only [Option.some_bind, Option.bind_eq_bind', hkp]
    rw [hsC]
    simpa using hs'
  -- assemble perform_castle
  have hpc : perform_castle s0 long col = some s' := by
    unfold perform_castle
    rw [show get_king_coord s0 col = some (4, homeRank col) from hk]
    simp only [Option.some_bind, Option.bind_eq_bind']
    have hrc : ((if long then 0 else 7 : Nat), (if col = .White then 0 else 7 : Nat)) =
        (cornerFile long, homeRank col) := rfl
    rw [hrc]
    have hrt : ((if long then 3 else 5 : Nat), (if col = .White then 0 else 7 : Nat)) =
        (rookTargetFile long, homeRank col) := rfl
    have hkt : ((if long then 2 else 6 : Nat), homeRank col) =
        (kingTargetFile long, homeRank col) := rfl
    rw [hrt, hkt, hrd1]
    simpa using hrd2
  have hrun : runEffect (.castleFn long col src dst) s = some (s', true) := by
    simp only [runEffect, hpc, Option.map_some']
  refine ⟨s', ?_, hrun, ?_, ?_, ?_, ?_⟩
  · unfold make_move
    simp only [Option.bind_eq_bind', hrun, Option.some_bind]
    simp
  · obtain ⟨sqk, hsqk1, hsqk2⟩ := setContent_sq_self hsC
    refine ⟨{ sqk with content := some { kp with has_moved := true } }, ?_, rfl⟩
    rw [setContent_sq_other hs' (hidx (kingTargetFile long) 4 hkt8 (by omega) (Ne.symm hne_k_kt))]
    exact hsqk2
  · obtain ⟨sqr, hsqr1, hsqr2⟩ := setContent_sq_self hsA
    refine ⟨{ sqr with content := some { rp with has_moved := true } }, ?_, rfl⟩
    rw [setContent_sq_other hs' (hidx (rookTargetFile long) 4 hrt8 (by omega) (Ne.symm hne_k_rt)),
      setContent_sq_other hsC (hidx (rookTargetFile long) (kingTargetFile long) hrt8 hkt8 (Ne.symm hne_kt_rt)),
      setContent_sq_other hsB (hidx (rookTargetFile long) (cornerFile long) hrt8 hcf8 hne_rt_cf)]
    exact hsqr2
  · obtain ⟨sqk0, hsqk01, hsqk02⟩ := setContent_sq_self hs'
    exact ⟨{ sqk0 with content := none }, hsqk02, rfl⟩
  · obtain ⟨sqr0, hsqr01, hsqr02⟩ := setContent_sq_self hsB
    refine ⟨{ sqr0 with content := none }, ?_, rfl⟩
    rw [setContent_sq_other hs' (hidx (cornerFile long) 4 hcf8 (by omega) (Ne.symm hne_k_cf)),
      setContent_sq_other hsC (hidx (cornerFile long) (kingTargetFile long) hcf8 hkt8 (Ne.symm hne_kt_cf))]
    exact hsqr02

/-- **C6** (amended).  A long (resp. short) castle move is offered for a
queried square exactly when the code's checks hold: the square is the king's
square, the king has not moved, the corner square of that side holds an
unmoved Rook-kinded piece (of **either** colour — the colour is not
verified), and the fixed home squares between them (files 1,2,3 resp. 5,6 of
the king's rank) are empty.  Applying the offered move with the king on its
home square (file 4 of the colour's home rank) relocates the king two files
toward the rook and the corner piece to the inner adjacent file (3 resp. 5)
on the same rank, and reports relocation handled. -/
theorem c6_castle_offer_and_effect :
    (∀ (s : State) (coord : Nat × Nat) (tfc : Bool) (ms : List ChessMove)
       (sq0 : Square) (piece : Piece),
      s.sq coord = some sq0 → sq0.content = some piece →
      get_moves s coord tfc = some ms →
      ((∃ m ∈ ms, ∃ t, m = ⟨t, .castleFn true piece.colour coord t⟩) ↔
        longCastleConds s piece coord)) ∧
    (∀ (s : State) (coord : Nat × Nat) (tfc : Bool) (ms : List ChessMove)
       (sq0 : Square) (piece : Piece),
      s.sq coord = some sq0 → sq0.content = some piece →
      get_moves s coord tfc = some ms →
      ((∃ m ∈ ms, ∃ t, m = ⟨t, .castleFn false piece.colour coord t⟩) ↔
        shortCastleConds s piece coord)) ∧
    (∀ (s : State) (col : ChessColour) (long : Bool) (src dst : Nat × Nat)
       (ksq rsq : Square) (kp rp : Piece),
      s.squares.length = 64 →
      get_king_coord s col = some (4, homeRank col) →
      s.sq (4, homeRank col) = some ksq → ksq.content = some kp →
      s.sq (cornerFile long, homeRank col) = some rsq → rsq.content = some rp →
      ∃ s', make_move s src ⟨dst, .castleFn long col src dst⟩ = some s' ∧
        runEffect (.castleFn long col src dst) s = some (s', true) ∧
        (∃ sqk, s'.sq (kingTargetFile long, homeRank col) = some sqk ∧
          sqk.content = some { kp with has_moved := true }) ∧
        (∃ sqr, s'.sq (rookTargetFile long, homeRank col) = some sqr ∧
          sqr.content = some { rp with has_moved := true }) ∧
        (∃ sqk0, s'.sq (4, homeRank col) = some sqk0 ∧ sqk0.content = none) ∧
        (∃ sqr0, s'.sq (cornerFile long, homeRank col) = some sqr0 ∧
          sqr0.content = none)) := by
  refine ⟨?_, ?_, ?_⟩
  · intro s coord tfc ms sq0 piece hsq hctn h
    constructor
    · rintro ⟨m, hm, t, hmeq⟩
      obtain ⟨sq0', piece', bm, nonchecking, castles, hsq', hctn', hbm, hnc, hcs, hcase⟩ :=
        get_moves_mem_cases h hm
      rw [hsq] at hsq'
      cases hsq'.symm
      rw [hctn] at hctn'
      cases hctn'.symm
      rcases hcase with hep | ⟨d, hd, hmd⟩ | hcastle
      · obtain ⟨_, d, hmeq2, _⟩ := baseMoves_ep hbm hep
        rw [hmeq] at hmeq2
        exact absurd (congrArg ChessMove.function hmeq2) (by simp)
      · rw [hmeq] at hmd
        have := congrArg ChessMove.function hmd
        simp only at this
        rcases classifyMove_fn coord piece d with hf | hf | hf <;>
          rw [hf] at this <;> exact absurd this (by simp)
      · obtain ⟨kc, ksq, kp, hkcoord, hceq, hksq, hkp, hmoved, longList, shortList,
          hlong, hshort, hcssplit⟩ := castleMoves_mem hcs hcastle
        subst hcssplit
        rcases List.mem_append.mp hcastle with hl | hs2
        · obtain ⟨asq, pa, b1, b2, b3, hasq, hpa, hrk, hrm, hb1, he1, hb2, he2,
            hb3, he3, _⟩ := longCastleList_mem hlong hl
          exact ⟨kc, hkcoord, hceq, ⟨ksq, kp, hksq, hkp, hmoved⟩,
            ⟨asq, pa, hasq, hpa, hrk, hrm⟩, ⟨b1, hb1, he1⟩, ⟨b2, hb2, he2⟩,
            ⟨b3, hb3, he3⟩⟩
        · obtain ⟨_, _, _, _, _, _, _, _, _, _, _, _, hmeq2⟩ :=
            shortCastleList_mem hshort hs2
          rw [hmeq] at hmeq2
          have := congrArg ChessMove.function hmeq2
          simp only at this
          exact absurd this (by simp)
    · rintro ⟨kc, hkcoord, hceq, ⟨ksq, kp, hksq, hkp, hmoved⟩,
        ⟨asq, pa, hasq, hpa, hrk, hrm⟩, ⟨b1, hb1, he1⟩, ⟨b2, hb2, he2⟩, ⟨b3, hb3, he3⟩⟩
      obtain ⟨sq0', piece', bm, nonchecking, castles, hsq', hctn', hbm, hnc, hcs, hms⟩ :=
        get_moves_inv h
      rw [hsq] at hsq'
      cases hsq'.symm
      rw [hctn] at hctn'
      cases hctn'.symm
      obtain ⟨longList, shortList, hlong, hshort, hcssplit⟩ :=
        castleMoves_decomp hkcoord hceq hksq hkp hmoved hcs
      have hll := longCastleList_complete hasq hpa hrk hrm hb1 he1 hb2 he2 hb3 he3 hlong
      refine ⟨⟨(u8sub kc.1 2, kc.2), .castleFn true piece.colour coord (u8sub kc.1 2, kc.2)⟩,
        ?_, (u8sub kc.1 2, kc.2), rfl⟩
      rw [hms, hcssplit, hll]
      simp
  · intro s coord tfc ms sq0 piece hsq hctn h
    constructor
    · rintro ⟨m, hm, t, hmeq⟩
      obtain ⟨sq0', piece', bm, nonchecking, castles, hsq', hctn', hbm, hnc, hcs, hcase⟩ :=
        get_moves_mem_cases h hm
      rw [hsq] at hsq'
      cases hsq'.symm
      rw [hctn] at hctn'
      cases hctn'.symm
      rcases hcase with hep | ⟨d, hd, hmd⟩ | hcastle
      · obtain ⟨_, d, hmeq2, _⟩ := baseMoves_ep hbm hep
        rw [hmeq] at hmeq2
        exact absurd (congrArg ChessMove.function hmeq2) (by simp)
      · rw [hmeq] at hmd
        have := congrArg ChessMove.function hmd
        simp only at this
        rcases classifyMove_fn coord piece d with hf | hf | hf <;>
          rw [hf] at this <;> exact absurd this (by simp)
      · obtain ⟨kc, ksq, kp, hkcoord, hceq, hksq, hkp, hmoved, longList, shortList,
          hlong, hshort, hcssplit⟩ := castleMoves_mem hcs hcastle
        subst hcssplit
        rcases List.mem_append.mp hcastle with hl | hs2
        · obtain ⟨_, _, _, _, _, _, _, _, _, _, _, _, _, _, _, hmeq2⟩ :=
            longCastleList_mem hlong hl
          rw [hmeq] at hmeq2
          have := congrArg ChessMove.function hmeq2
          simp only at this
          exact absurd this (by simp)
        · obtain ⟨hsq1, ph, b5, b6, hhsq, hph, hrk, hrm, hb5, he5, hb6, he6, _⟩ :=
            shortCastleList_mem hshort hs2
          exact ⟨kc, hkcoord, hceq, ⟨ksq, kp, hksq, hkp, hmoved⟩,
            ⟨hsq1, ph, hhsq, hph, hrk, hrm⟩, ⟨b5, hb5, he5⟩, ⟨b6, hb6, he6⟩⟩
    · rintro ⟨kc, hkcoord, hceq, ⟨ksq, kp, hksq, hkp, hmoved⟩,
        ⟨hsq1, ph, hhsq, hph, hrk, hrm⟩, ⟨b5, hb5, he5⟩, ⟨b6, hb6, he6⟩⟩
      obtain ⟨sq0', piece', bm, nonchecking, castles, hsq', hctn', hbm, hnc, hcs, hms⟩ :=
        get_moves_inv h
      rw [hsq] at hsq'
      cases hsq'.symm
      rw [hctn] at hctn'
      cases hctn'.symm
      obtain ⟨longList, shortList, hlong, hshort, hcssplit⟩ :=
        castleMoves_decomp hkcoord hceq hksq hkp hmoved hcs
      have hsl := shortCastleList_complete hhsq hph hrk hrm hb5 he5 hb6 he6 hshort
      refine ⟨⟨(u8add kc.1 2, kc.2), .castleFn false piece.colour coord (u8add kc.1 2, kc.2)⟩,
        ?_, (u8add kc.1 2, kc.2), rfl⟩
      rw [hms, hcssplit, hsl]
      simp
  · intro s col long src dst ksq rsq kp rp hlen hk hksq hkp hrsq hrp
    exact castle_effect col long hlen hk hksq hkp hrsq hrp

/-- Witness for `c6_castle_offer_and_effect` at a concrete input: the short
castle really is offered in the castle-ready fixture `stC5`. -/
theorem c6_witness :
    ∃ m ∈ [ChessMove.mk (3, 0) (.defaultFn (4, 0) (3, 0)),
           ChessMove.mk (3, 1) (.defaultFn (4, 0) (3, 1)),
           ChessMove.mk (4, 1) (.defaultFn (4, 0) (4, 1)),
           ChessMove.mk (5, 0) (.defaultFn (4, 0) (5, 0)),
           ChessMove.mk (5, 1) (.defaultFn (4, 0) (5, 1)),
           ChessMove.mk (6, 0) (.castleFn false .White (4, 0) (6, 0))],
      ∃ t, m = ⟨t, .castleFn false ChessColour.White (4, 0) t⟩ :=
  (c6_castle_offer_and_effect.2.1 stC5 (4, 0) true _
      ⟨(4, 0), some ⟨.King, .White, false, false⟩⟩ ⟨.King, .White, false, false⟩
      (by rfl) (by rfl) (by rfl)).mpr
    ⟨(4, 0), by rfl, rfl,
      ⟨⟨(4, 0), some ⟨.King, .White, false, false⟩⟩, ⟨.King, .White, false, false⟩,
        by rfl, rfl, rfl⟩,
      ⟨⟨(7, 0), some ⟨.Rook, .White, false, false⟩⟩, ⟨.Rook, .White, false, false⟩,
        by rfl, rfl, rfl, rfl⟩,
      ⟨⟨(5, 0), none⟩, by rfl, rfl⟩, ⟨⟨(6, 0), none⟩, by rfl, rfl⟩⟩

/-! ## Claim C7: helper lemmas -/

theorem flip_ne (col : ChessColour) : col.flip ≠ col := by
  cases col <;> simp [ChessColour.flip]

theorem u8sub_two_ne {k : Nat} (_hk : k < 8) : u8sub k 2 ≠ k := by
  unfold u8sub
  omega

theorem u8add_two_ne {k : Nat} (_hk : k < 8) : u8add k 2 ≠ k := by
  unfold u8add
  omega

/-- Inversion of the `is_in_check` scan: a `true` result exhibits a scanned
square whose unfiltered destinations hit the king; a `false` result means
every scanned square was evaluated and missed. -/
theorem checkScan_inv {s : State} {kc : Nat × Nat} :
    ∀ {l : List (Nat × Nat)} {r : Bool}, checkScan s kc l = some r →
    (r = true → ∃ c ∈ l, ∃ mse, getMovesNoCheck s c = some mse ∧
        ∃ m ∈ mse, m.dst = kc) ∧
    (r = false → ∀ c ∈ l, ∃ mse, getMovesNoCheck s c = some mse ∧
        ∀ m ∈ mse, m.dst ≠ kc) := by
  intro l
  induction l with
  | nil =>
      intro r h
      unfold checkScan at h
      cases h
      exact ⟨fun hr => absurd hr (by simp), fun _ c hc => absurd hc (by simp)⟩
  | cons a rest ih =>
      intro r h
      unfold checkScan at h
      simp only [Option.bind_eq_bind', Option.bind_eq_some] at h
      obtain ⟨mse, hmse, hrest⟩ := h
      by_cases hany : (mse.any fun m => decide (m.dst = kc)) = true
      · rw [if_pos hany] at hrest
        simp only [Option.pure_def, Option.some.injEq] at hrest
        subst hrest
        obtain ⟨m, hm, hdst⟩ := List.any_eq_true.mp hany
        refine ⟨fun _ => ⟨a, List.mem_cons_self a rest, mse, hmse, m, hm, of_decide_eq_true hdst⟩,
          fun hr => absurd hr (by simp)⟩
      · rw [if_neg hany] at hrest
        obtain ⟨ihT, ihF⟩ := ih hrest
        constructor
        · intro hr
          obtain ⟨c, hc, w⟩ := ihT hr
          exact ⟨c, List.mem_cons_of_mem _ hc, w⟩
        · intro hr c hc
          rcases List.mem_cons.mp hc with rfl | hc'
          · refine ⟨mse, hmse, ?_⟩
            intro m hm hdst
            exact hany (List.any_eq_true.mpr ⟨m, hm, by simpa using hdst⟩)
          · exact ihF hr c hc'

/-- On a well-formed board, membership in the occupied-coordinate scan list
yields the square at those coordinates. -/
theorem occupiedCoords_mem_wf {s : State} (hwf : wf s = true)
    {c : Nat × Nat} (hc : c ∈ occupiedCoords s) :
    c.1 < 8 ∧ c.2 < 8 ∧ ∃ sqc p, s.sq c = some sqc ∧ sqc.content = some p := by
  unfold occupiedCoords at hc
  obtain ⟨sqc, hfil, hco⟩ := List.mem_map.mp hc
  obtain ⟨hmem, hocc⟩ := List.mem_filter.mp hfil
  obtain ⟨i, hget⟩ := List.mem_iff_get?.mp hmem
  have hcoords := wf_coords hwf hget
  have hlen := wf_length hwf
  have hi : i < 64 := by
    have := (List.get?_eq_some.mp hget).1
    omega
  have hc1 : c.1 = i % 8 := by rw [← hco, hcoords]
  have hc2 : c.2 = i / 8 := by rw [← hco, hcoords]
  have hidx : idx c = i := by unfold idx; omega
  obtain ⟨p, hp⟩ := Option.isSome_iff_exists.mp hocc
  refine ⟨by omega, by omega, sqc, p, ?_, hp⟩
  unfold State.sq
  rw [hidx]
  exact hget

/-- Conversely, any in-range occupied square appears in the scan list. -/
theorem occupiedCoords_of_sq {s : State} (hwf : wf s = true)
    {c : Nat × Nat} {sqc : Square} {p : Piece} (h1 : c.1 < 8) (_h2 : c.2 < 8)
    (hsq : s.sq c = some sqc) (hctn : sqc.content = some p) :
    c ∈ occupiedCoords s := by
  unfold occupiedCoords
  have hcoords := wf_coords hwf hsq
  have hmem : sqc ∈ s.squares := List.get?_mem hsq
  refine List.mem_map.mpr ⟨sqc, List.mem_filter.mpr ⟨hmem, by rw [hctn]; rfl⟩, ?_⟩
  rw [hcoords]
  unfold idx
  have : (c.1 + 8 * c.2) % 8 = c.1 := by omega
  have h2' : (c.1 + 8 * c.2) / 8 = c.2 := by omega
  rw [this, h2']

/-- Recogniser for the en-passant closure. -/
def isEp : EffectTag → Bool
  | .enPassantFn _ _ => true
  | _ => false

/-- No piece of the given colour carries an attached en-passant destination
equal to `kc` (the proviso under which the all-squares scan of
`is_in_check` agrees with an enemy-only scan). -/
def noOwnEpToKing (s : State) (col : ChessColour) (kc : Nat × Nat) : Bool :=
  (occupiedCoords s).all (fun c =>
    match s.sq c with
    | some sqc =>
      match sqc.content with
      | some p =>
        if p.colour = col then
          match getMovesNoCheck s c with
          | some mse => mse.all (fun m => ! isEp m.function || decide (m.dst ≠ kc))
          | none => true
        else true
      | none => true
    | none => true)

theorem noOwnEpToKing_spec {s : State} {col : ChessColour} {kc : Nat × Nat}
    (h : noOwnEpToKing s col kc = true) {c : Nat × Nat} (hc : c ∈ occupiedCoords s)
    {sqc : Square} {p : Piece} (hsq : s.sq c = some sqc) (hctn : sqc.content = some p)
    (hcol : p.colour = col) {mse : List ChessMove} (hmse : getMovesNoCheck s c = some mse)
    {m : ChessMove} (hm : m ∈ mse) (hf : isEp m.function = true) : m.dst ≠ kc := by
  unfold noOwnEpToKing at h
  have := List.all_eq_true.mp h c hc
  rw [hsq] at this
  simp only [hctn] at this
  rw [if_pos hcol, hmse] at this
  have := List.all_eq_true.mp this m hm
  rw [hf] at this
  simpa using this

theorem colour_eq_of_ne_flip {a col : ChessColour} (h : a ≠ col.flip) : a = col := by
  cases col <;> cases a <;> simp_all [ChessColour.flip]

/-- **C7** (amended).  On a well-formed board, and provided no piece of the
tested colour carries an attached en-passant destination equal to its king's
square, `is_in_check(colour)` returns `true` iff the king's coordinate
appears among the unfiltered destinations of at least one enemy-occupied
square: the implementation's all-squares scan agrees with an enemy-only
scan, because base destinations never land on a square occupied by the
mover's own colour and castling targets never equal the king's own square —
only attached en-passant destinations can break the equivalence. -/
theorem c7_amended_check_scan_equivalence :
    ∀ (s : State) (col : ChessColour) (kc : Nat × Nat) (r : Bool),
    wf s = true →
    get_king_coord s col = some kc →
    noOwnEpToKing s col kc = true →
    is_in_check s col = some r →
    (r = true ↔ ∃ c, c.1 < 8 ∧ c.2 < 8 ∧
      ∃ sqc p, s.sq c = some sqc ∧ sqc.content = some p ∧ p.colour = col.flip ∧
      ∃ mse, getMovesNoCheck s c = some mse ∧ ∃ m ∈ mse, m.dst = kc) := by
  intro s col kc r hwf hk hep hchk
  unfold is_in_check at hchk
  rw [hk] at hchk
  simp only [Option.bind_eq_bind', Option.some_bind] at hchk
  obtain ⟨hT, hF⟩ := checkScan_inv hchk
  obtain ⟨ksq2, kp2, hksq2, hkp2, hkind2, hkcol2, hkc1, hkc2⟩ := get_king_coord_wf hwf hk
  constructor
  · intro hr
    obtain ⟨c, hcocc, mse, hmse, m, hm, hdst⟩ := hT hr
    obtain ⟨hc1, hc2, sqc, p, hsq, hctn⟩ := occupiedCoords_mem_wf hwf hcocc
    by_cases hpc : p.colour = col.flip
    · exact ⟨c, hc1, hc2, sqc, p, hsq, hctn, hpc, mse, hmse, m, hm, hdst⟩
    · exfalso
      have hpcol : p.colour = col := colour_eq_of_ne_flip hpc
      obtain ⟨sq0', piece', bm, castles, hsq', hctn', hbm, hcs, hmsplit⟩ :=
        getMovesNoCheck_inv hmse
      rw [hsq] at hsq'
      cases hsq'.symm
      rw [hctn] at hctn'
      cases hctn'.symm
      subst hmsplit
      rcases List.mem_append.mp hm with hm' | hcastle
      · rcases List.mem_append.mp hm' with hepm | hcl
        · obtain ⟨_, d, hmeq, _⟩ := baseMoves_ep hbm hepm
          exact noOwnEpToKing_spec hep hcocc hsq hctn hpcol hmse hm
            (by rw [hmeq]; rfl) hdst
        · obtain ⟨d, hd, hmd⟩ := List.mem_map.mp hcl
          have hdstd : m.dst = d := by rw [← hmd, classifyMove_dst]
          obtain ⟨_, _, ksqc, hksqc, hcases⟩ := baseMoves_mem hc1 hbm hd
          rw [hdstd] at hdst
          subst hdst
          rw [hksq2] at hksqc
          cases hksqc.symm
          rcases hcases with hnone | ⟨kp3, hkp3, hkp3col⟩
          · rw [hkp2] at hnone
            exact absurd hnone (by simp)
          · rw [hkp2] at hkp3
            cases hkp3.symm
            rw [hkcol2] at hkp3col
            rw [hpcol] at hkp3col
            exact flip_ne col hkp3col.symm
      · obtain ⟨kc', ksq', kp', hkcoord', hceq, _, _, _, longList, shortList,
          hlong, hshort, hcssplit⟩ := castleMoves_mem hcs hcastle
        have hkc'eq : kc' = kc := by
          rw [hpcol] at hkcoord'
          rw [hk] at hkcoord'
          exact (Option.some.inj hkcoord').symm
        subst hkc'eq
        subst hcssplit
        rcases List.mem_append.mp hcastle with hl | hs2
        · obtain ⟨_, _, _, _, _, _, _, _, _, _, _, _, _, _, _, hmeq⟩ :=
            longCastleList_mem hlong hl
          rw [hmeq] at hdst
          simp only at hdst
          exact u8sub_two_ne hkc1 (congrArg Prod.fst hdst)
        · obtain ⟨_, _, _, _, _, _, _, _, _, _, _, _, hmeq⟩ :=
            shortCastleList_mem hshort hs2
          rw [hmeq] at hdst
          simp only at hdst
          exact u8add_two_ne hkc1 (congrArg Prod.fst hdst)
  · rintro ⟨c, hc1, hc2, sqc, p, hsq, hctn, hpc, mse, hmse, m, hm, hdst⟩
    cases r with
    | true => rfl
    | false =>
        exfalso
        have hcocc : c ∈ occupiedCoords s := occupiedCoords_of_sq hwf hc1 hc2 hsq hctn
        obtain ⟨mse', hmse', hall⟩ := hF rfl c hcocc
        rw [hmse] at hmse'
        cases (Option.some.inj hmse')
        exact hall m hm hdst

/-- Check fixture: White king e1, Black rook e8 giving check down the open
e-file, Black king a8. -/
def stC7w : State := mkState
  (place (place (place emptyBoard
    (4, 0) ⟨.King, .White, true, false⟩)
    (4, 7) ⟨.Rook, .Black, true, false⟩)
    (0, 7) ⟨.King, .Black, true, false⟩)

/-- Witness for `c7_amended_check_scan_equivalence` at a concrete input: in
`stC7w` the reported check really comes from an enemy-occupied square whose
unfiltered destinations contain the king square. -/
theorem c7_witness :
    ∃ c : Nat × Nat, c.1 < 8 ∧ c.2 < 8 ∧
      ∃ sqc p, stC7w.sq c = some sqc ∧ sqc.content = some p ∧
        p.colour = ChessColour.White.flip ∧
        ∃ mse, getMovesNoCheck stC7w c = some mse ∧ ∃ m ∈ mse, m.dst = (4, 0) :=
  (c7_amended_check_scan_equivalence stC7w .White (4, 0) true
    (by rfl) (by rfl) (by rfl) (by rfl)).mp rfl
